import Mathlib

/-!
Verification development for the `ragprep` HTML-to-JSONL preprocessor
(`src/preprocess_html.py`).

Texts are embedded as lists of characters (`Txt`).  The recursive text
splitter used by the program (`RecursiveCharacterTextSplitter.split_text`,
a library collaborator that is not part of the repository sources) is
modelled from the specification, §4.1–§4.2.  Everything else is translated
directly from `src/preprocess_html.py`.
-/

set_option maxHeartbeats 1000000

abbrev Txt := List Char

namespace RagPrep

/-- Modelled from the spec (§4.1): the occurrence test used by the Boundary
Splitter.  `isPrefOf s t` holds when `s` is an initial segment of `t`. -/
def isPrefOf : Txt → Txt → Bool
  | [], _ => true
  | _ :: _, [] => false
  | a :: s, b :: t => a == b && isPrefOf s t

/-- Modelled from the spec (§4.1): `occursIn s t` holds when the separator
`s` occurs at least once in the text `t` (Python `s in text`). -/
def occursIn (s : Txt) : Txt → Bool
  | [] => isPrefOf s []
  | c :: t => isPrefOf s (c :: t) || occursIn s t

/-- Modelled from the spec (§4.2 step 3): split the text at every occurrence
of the non-empty separator `s`, discarding the separator characters.
`acc` holds the (reversed) characters of the fragment being scanned. -/
def splitOnSepAux (s : Txt) (hs : s ≠ []) : Txt → Txt → List Txt
  | [], acc => [acc.reverse]
  | c :: t, acc =>
    if isPrefOf s (c :: t) then
      acc.reverse :: splitOnSepAux s hs ((c :: t).drop s.length) []
    else
      splitOnSepAux s hs t (c :: acc)
termination_by t _ => t.length
decreasing_by
  · have hlen : 0 < s.length := List.length_pos.mpr hs
    simp only [List.length_drop, List.length_cons]
    omega
  · simp only [List.length_cons]
    omega

/-- Modelled from the spec (§4.2 step 3): splitting on the empty separator
divides the text between any two characters (one fragment per character);
splitting on a non-empty separator removes each of its occurrences. -/
def splitOnSep (s : Txt) (t : Txt) : List Txt :=
  if hs : s = [] then t.map (fun c => [c])
  else splitOnSepAux s hs t []

/-- Modelled from the spec (§4.2 steps 3–4): fragments are rejoined with the
separator that was used to split them, not concatenated raw. -/
def joinSep (sep : Txt) : List Txt → Txt
  | [] => []
  | [d] => d
  | d :: ds => d ++ sep ++ joinSep sep ds

/-- Modelled from the spec (§4.2 step 4): when a buffer is flushed, leading
fragments are dropped until the carried-back tail holds at most
`chunk_overlap` characters and the next fragment `d` still fits within
`chunk_size` characters. -/
def shrinkBuf (n ov : Nat) (sep : Txt) (d : Txt) : List Txt → List Txt
  | [] => []
  | b :: bs =>
    if n < (joinSep sep ((b :: bs) ++ [d])).length
        ∨ ov < (joinSep sep (b :: bs)).length then
      shrinkBuf n ov sep d bs
    else b :: bs

/-- Modelled from the spec (§4.2 step 4): greedily pack consecutive
fragments into a growing buffer; while appending the next fragment (plus
separator) keeps the buffer's length at most `chunk_size`, append it,
otherwise flush the buffer as a completed chunk and start a new buffer
carrying back roughly `chunk_overlap` characters of trailing fragments. -/
def mergeLoop (n ov : Nat) (sep : Txt) : List Txt → List Txt → List Txt
  | [], buf => if buf.isEmpty then [] else [joinSep sep buf]
  | d :: ds, buf =>
    if (joinSep sep (buf ++ [d])).length ≤ n then
      mergeLoop n ov sep ds (buf ++ [d])
    else
      (if buf.isEmpty then [] else [joinSep sep buf]) ++
        mergeLoop n ov sep ds (shrinkBuf n ov sep d buf ++ [d])

/-- Modelled from the spec (§4.2 steps 4–5): walk the fragment sequence,
accumulating fragments that fit within `chunk_size`; an oversized fragment
flushes the accumulated run and is recursed upon via `recur`, its
sub-chunks spliced into the output in place. -/
def goFrags (n ov : Nat) (sep : Txt) (recur : Txt → List Txt) :
    List Txt → List Txt → List Txt
  | [], good => mergeLoop n ov sep good []
  | f :: fs, good =>
    if f.length ≤ n then goFrags n ov sep recur fs (good ++ [f])
    else
      mergeLoop n ov sep good [] ++ recur f ++ goFrags n ov sep recur fs []

/-- Modelled from the spec (§4.1–§4.2): select the first separator in the
priority list that occurs in the text (the empty separator always
succeeds), split on it, and process the fragments; oversized fragments
recurse with the remaining lower-priority separators.  With an exhausted
separator list the text is returned whole (the documented raw-append
fallback). -/
def splitSeps (n ov : Nat) : List Txt → Txt → List Txt
  | [], text => [text]
  | s :: rest, text =>
    if s = [] then
      goFrags n ov [] (fun f => [f]) (text.map (fun c => [c])) []
    else if occursIn s text then
      goFrags n ov s (fun f => splitSeps n ov rest f) (splitOnSep s text) []
    else
      splitSeps n ov rest text

/-- Modelled from the spec (§4.1): the separator priority list used by the
splitter the program constructs — double newline, newline, space, and the
empty separator as last resort. -/
def defaultSeparators : List Txt := [['\n', '\n'], ['\n'], [' '], []]

/-- Modelled from the spec (§4.2): `split_text`.  Empty input yields zero
chunks; text already within the size bound is returned as a single chunk;
longer text is split recursively along the separator priority list. -/
def split_text (n ov : Nat) (text : Txt) : List Txt :=
  if text.length = 0 then []
  else if text.length ≤ n then [text]
  else splitSeps n ov defaultSeparators text

/-- Shape of the chunk list produced by the no-separator fallback cut:
every chunk except the last has length exactly `n`, and the final
remainder is no longer than `n`. -/
def fallbackShape (n : Nat) : List Txt → Bool
  | [] => true
  | [c] => decide (c.length ≤ n)
  | c :: cs => (c.length == n) && fallbackShape n cs

/-!
DOM node of a parsed document.  The spec treats the HTML parser as a
black-box conformant tag-tree parser (§1, §4.3); a document is a list of
nodes, each either a text run or an element with tag, attributes and
children.  The node list is its own inductive so that tree traversals are
structurally recursive.
-/
mutual
/-- A DOM node: a text run or an element. -/
inductive Node where
  | text (s : String)
  | elem (tag : String) (attrs : List (String × String)) (children : NodeList)
/-- A sequence of sibling DOM nodes. -/
inductive NodeList where
  | nil
  | cons (hd : Node) (tl : NodeList)
end

/-- Build a `NodeList` from a plain list of nodes. -/
def nlist : List Node → NodeList
  | [] => NodeList.nil
  | n :: rest => NodeList.cons n (nlist rest)

/-- From src (`clean_html`): `soup(["script", "style", "noscript"])` followed
by `decompose()` removes every element whose tag is in `ts`, with its whole
subtree. -/
def stripTags (ts : List String) : NodeList → NodeList
  | NodeList.nil => NodeList.nil
  | NodeList.cons (Node.text s) rest => NodeList.cons (Node.text s) (stripTags ts rest)
  | NodeList.cons (Node.elem t a cs) rest =>
    if t ∈ ts then stripTags ts rest
    else NodeList.cons (Node.elem t a (stripTags ts cs)) (stripTags ts rest)

/-- Number of elements with tag `t` anywhere in the node list. -/
def countTag (t : String) : NodeList → Nat
  | NodeList.nil => 0
  | NodeList.cons (Node.text _) rest => countTag t rest
  | NodeList.cons (Node.elem u _ cs) rest =>
    (if u = t then 1 else 0) + countTag t cs + countTag t rest

/-- From src (`clean_html`): `soup.find(tag)` — the first element with tag
`t` in document (pre-) order. -/
def findTag (t : String) : NodeList → Option Node
  | NodeList.nil => none
  | NodeList.cons (Node.text _) rest => findTag t rest
  | NodeList.cons (Node.elem u a cs) rest =>
    if u = t then some (Node.elem u a cs)
    else
      match findTag t cs with
      | some nd => some nd
      | none => findTag t rest

/-- From src (`clean_html`): `found = soup.find(tag); if found:
found.decompose()` — remove the first element with tag `t` in document
order, together with its subtree.  The boolean records whether a removal
happened. -/
def dropFirstTag (t : String) : NodeList → NodeList × Bool
  | NodeList.nil => (NodeList.nil, false)
  | NodeList.cons (Node.text s) rest =>
    let r := dropFirstTag t rest
    (NodeList.cons (Node.text s) r.1, r.2)
  | NodeList.cons (Node.elem u a cs) rest =>
    if u = t then (rest, true)
    else
      let rc := dropFirstTag t cs
      if rc.2 then (NodeList.cons (Node.elem u a rc.1) rest, true)
      else
        let rr := dropFirstTag t rest
        (NodeList.cons (Node.elem u a cs) rr.1, rr.2)

/-- From src (`clean_html` line 33): script-like tags whose every instance
is removed. -/
def scriptTags : List String := ["script", "style", "noscript"]

/-- From src (`clean_html` line 36): boilerplate container tags, processed
in this order, one `find`/`decompose` each. -/
def boilerTags : List String := ["header", "footer", "nav", "aside", "form"]

/-- From src (`clean_html` lines 36–39): the boilerplate removal loop. -/
def removeBoiler (ns : NodeList) : NodeList :=
  boilerTags.foldl (fun acc t => (dropFirstTag t acc).1) ns

/-- The character runs of all text nodes, in document order
(`soup.get_text`). -/
def collectTexts : NodeList → List Txt
  | NodeList.nil => []
  | NodeList.cons (Node.text s) rest => s.data :: collectTexts rest
  | NodeList.cons (Node.elem _ _ cs) rest => collectTexts cs ++ collectTexts rest

/-- From src: `get_text(separator=sep)` — all text runs joined by `sep`. -/
def getText (sep : Txt) (ns : NodeList) : Txt :=
  joinSep sep (collectTexts ns)

/-- Split a character run at every occurrence of a single character
(`str.splitlines` for newline-joined text, `str.split(" ")`,
and the path split behind `os.path.basename`). -/
def splitOnChar (sep : Char) : Txt → List Txt
  | [] => [[]]
  | a :: rest =>
    if a = sep then [] :: splitOnChar sep rest
    else
      match splitOnChar sep rest with
      | [] => [[a]]
      | g :: gs => (a :: g) :: gs

/-- Python `str.strip`: drop leading and trailing whitespace characters. -/
def trimChars (s : Txt) : Txt :=
  ((s.dropWhile Char.isWhitespace).reverse.dropWhile Char.isWhitespace).reverse

/-- Python `str.strip` on packed strings. -/
def pyStrip (s : String) : String :=
  String.mk (trimChars s.data)

/-- From src (`clean_html`): strip scripts/styles, remove boilerplate,
extract the text with newline separators, trim every line, drop blank
lines, and rejoin with single newlines.  Returns the cleaned text together
with the cleaned soup (used afterwards for metadata extraction). -/
def clean_html (doc : NodeList) : Txt × NodeList :=
  let soup := removeBoiler (stripTags scriptTags doc)
  let text := getText ['\n'] soup
  let lines := ((splitOnChar '\n' text).map trimChars).filter (fun l => l ≠ [])
  (joinSep ['\n'] lines, soup)

/-- Attribute lookup on an element's attribute list (`tag.get(k)`). -/
def getAttr (attrs : List (String × String)) (k : String) : Option String :=
  (attrs.find? (fun p => p.1 == k)).map (fun p => p.2)

/-- The attribute list of a node (empty for text nodes). -/
def nodeAttrs : Node → List (String × String)
  | Node.text _ => []
  | Node.elem _ a _ => a

/-- The children of a node (empty for text nodes). -/
def nodeChildren : Node → NodeList
  | Node.text _ => NodeList.nil
  | Node.elem _ _ cs => cs

/-- From src (`extract_metadata`): `soup.find('meta', attrs={k: v})` — the
first `meta` element whose attribute `k` equals `v`. -/
def findMetaWith (k v : String) : NodeList → Option Node
  | NodeList.nil => none
  | NodeList.cons (Node.text _) rest => findMetaWith k v rest
  | NodeList.cons (Node.elem u a cs) rest =>
    if u = "meta" ∧ getAttr a k = some v then some (Node.elem u a cs)
    else
      match findMetaWith k v cs with
      | some nd => some nd
      | none => findMetaWith k v rest

/-- `class` attributes are space-separated lists of class names. -/
def hasClass (a : List (String × String)) (c : String) : Bool :=
  match getAttr a "class" with
  | some s => (splitOnChar ' ' s.data).contains c.data
  | none => false

/-- From src (`extract_metadata`): `soup.find(class_=c)` — the first
element carrying class `c`. -/
def findClass (c : String) : NodeList → Option Node
  | NodeList.nil => none
  | NodeList.cons (Node.text _) rest => findClass c rest
  | NodeList.cons (Node.elem u a cs) rest =>
    if hasClass a c then some (Node.elem u a cs)
    else
      match findClass c cs with
      | some nd => some nd
      | none => findClass c rest

/-- `tag.string`: the single text child of an element, when it has exactly
one child and that child is a text run. -/
def nodeString : Node → Option String
  | Node.elem _ _ (NodeList.cons (Node.text s) NodeList.nil) => some s
  | _ => none

/-- Python dict assignment `m[k] = v` on an association list: overwrite in
place if the key exists, otherwise append. -/
def setKey : List (String × String) → String → String → List (String × String)
  | [], k, v => [(k, v)]
  | p :: rest, k, v => if p.1 = k then (k, v) :: rest else p :: setKey rest k v

/-- Association-list lookup (`k in m` / `m[k]`). -/
def getKey (m : List (String × String)) (k : String) : Option String :=
  (m.find? (fun p => p.1 == k)).map (fun p => p.2)

/-- From src (`extract_metadata` lines 51–53): title from the title
element, when its string is truthy (non-empty). -/
def titleStep (soup : NodeList) (meta : List (String × String)) :
    List (String × String) :=
  match findTag "title" soup with
  | some tn =>
    match nodeString tn with
    | some s => if s ≠ "" then setKey meta "title" (pyStrip s) else meta
    | none => meta
  | none => meta

/-- From src (`extract_metadata` lines 54–57): author from the author meta
tag, when its content is truthy. -/
def metaAuthorStep (soup : NodeList) (meta : List (String × String)) :
    List (String × String) :=
  match findMetaWith "name" "author" soup with
  | some an =>
    match getAttr (nodeAttrs an) "content" with
    | some c => if c ≠ "" then setKey meta "author" (pyStrip c) else meta
    | none => meta
  | none => meta

/-- From src (`extract_metadata` lines 58–62): author fallback from a
class-marked inline element, tried only when no author was found yet. -/
def classAuthorStep (soup : NodeList) (meta : List (String × String)) :
    List (String × String) :=
  if (getKey meta "author").isNone then
    match findClass "author" soup with
    | some sp => setKey meta "author" (String.mk (trimChars (getText [' '] (NodeList.cons sp NodeList.nil))))
    | none => meta
  else meta

/-- From src (`extract_metadata` lines 63–67): date from the first time
element, preferring the machine-readable `datetime` attribute over the
display text. -/
def timeStep (soup : NodeList) (meta : List (String × String)) :
    List (String × String) :=
  match findTag "time" soup with
  | some tt =>
    setKey meta "date"
      (pyStrip (match getAttr (nodeAttrs tt) "datetime" with
        | some v => v
        | none => String.mk (getText [] (nodeChildren tt))))
  | none => meta

/-- From src (`extract_metadata` lines 68–71): a truthy
`article:published_time` meta property overrides the date. -/
def pubTimeStep (soup : NodeList) (meta : List (String × String)) :
    List (String × String) :=
  match findMetaWith "property" "article:published_time" soup with
  | some dm =>
    match getAttr (nodeAttrs dm) "content" with
    | some c => if c ≠ "" then setKey meta "date" (pyStrip c) else meta
    | none => meta
  | none => meta

/-- From src (`extract_metadata`): opportunistic metadata extraction — the
five blocks of the source function applied in order to an initially empty
mapping. -/
def extract_metadata (soup : NodeList) : List (String × String) :=
  pubTimeStep soup (timeStep soup (classAuthorStep soup (metaAuthorStep soup
    (titleStep soup []))))

/-- A JSON value as serialized by the emitter: strings, the integer chunk
index, and objects. -/
inductive JsonVal where
  | str (s : String)
  | num (n : Nat)
  | obj (fields : List (String × JsonVal))

/-- Keys of a JSON object, in order. -/
def objKeys : JsonVal → List String
  | JsonVal.obj fs => fs.map (fun p => p.1)
  | _ => []

/-- Field lookup in a JSON object. -/
def objGet (k : String) : JsonVal → Option JsonVal
  | JsonVal.obj fs => (fs.find? (fun p => p.1 == k)).map (fun p => p.2)
  | _ => none

/-- From src (`process_file` lines 100–106): one output record — exactly
the keys `content` and `metadata`, the latter holding the document
metadata with the integer `chunk` index added. -/
def mkEntry (md : List (String × String)) (idx : Nat) (content : String) : JsonVal :=
  JsonVal.obj
    [("content", JsonVal.str content),
     ("metadata", JsonVal.obj
        (md.map (fun p => (p.1, JsonVal.str p.2)) ++ [("chunk", JsonVal.num idx)]))]

/-- Python `enumerate` starting at `i`. -/
def enumFrom (i : Nat) : List α → List (Nat × α)
  | [] => []
  | a :: l => (i, a) :: enumFrom (i + 1) l

/-- From src: `os.path.basename` — the final path component. -/
def basename (p : String) : String :=
  String.mk ((splitOnChar '/' p.data).getLastD [])

/-- From src (`process_file` lines 91–95): the per-document metadata — the
extracted metadata with `filename` always added and `source` added when a
source URL is known. -/
def docMeta (doc : NodeList) (fp : String) (su : Option String) :
    List (String × String) :=
  match su with
  | some u =>
    setKey (setKey (extract_metadata (clean_html doc).2) "filename" (basename fp)) "source" u
  | none => setKey (extract_metadata (clean_html doc).2) "filename" (basename fp)

/-- From src (`process_file`): read and parse a document (read errors carry
a reason), clean it, bail out with a note when no content was extracted,
attach `filename` (and `source` when given), chunk the text and produce one
record per chunk.  Returns the records and the log lines it prints. -/
def process_file (readResult : Except String NodeList) (filePath : String)
    (n ov : Nat) (source_url : Option String) : List JsonVal × List String :=
  match readResult with
  | Except.error e =>
    ([], ["Warning: could not read file " ++ filePath ++ ": " ++ e])
  | Except.ok doc =>
    let tp := clean_html doc
    if tp.1 = [] then ([], ["Note: no content extracted from " ++ filePath])
    else
      let md := extract_metadata tp.2
      let md := setKey md "filename" (basename filePath)
      let md := match source_url with
        | some u => setKey md "source" u
        | none => md
      let chunks := split_text n ov tp.1
      ((enumFrom 0 chunks).map (fun p => mkEntry md p.1 (String.mk p.2)), [])

/-- The file-system interface the script uses: `os.path.isdir`,
`os.path.isfile`, `os.walk` (roots paired with the file names they
contain), and reading-plus-parsing a document. -/
structure FileSys where
  isDir : String → Bool
  isFile : String → Bool
  walk : String → List (String × List String)
  readDoc : String → Except String NodeList

/-- From src (`gather_files` line 119): `name.lower().endswith((".html",
".htm"))`.  A suffix test on lower-cased characters. -/
def isHtmlName (name : String) : Bool :=
  (".html".data.reverse.isPrefixOf ((name.data.map Char.toLower).reverse))
    || (".htm".data.reverse.isPrefixOf ((name.data.map Char.toLower).reverse))

/-- From src: `os.path.join(root, name)`. -/
def joinPath (root name : String) : String := root ++ "/" ++ name

/-- Lexicographic order on character runs by code point — how Python's
`sorted` compares strings. -/
def lexLe : Txt → Txt → Bool
  | [], _ => true
  | _ :: _, [] => false
  | a :: s, b :: t => if a = b then lexLe s t else decide (a < b)

/-- Python string comparison, used by `sorted(files)`. -/
def strLe (a b : String) : Bool := lexLe a.data b.data

/-- From src (`gather_files`): walk directory arguments collecting files
with a markup extension, take file arguments as they are, report
non-existent paths, and return the collected files sorted.  Returns the
sorted files together with the log lines printed for skipped paths. -/
def gather_files (fs : FileSys) (paths : List String) : List String × List String :=
  let collected := paths.flatMap (fun path =>
    if fs.isDir path then
      (fs.walk path).flatMap (fun rn => (rn.2.filter isHtmlName).map (joinPath rn.1))
    else if fs.isFile path then [path]
    else [])
  let logs := paths.filterMap (fun path =>
    if fs.isDir path then none
    else if fs.isFile path then none
    else some ("Skipping non-existent path: " ++ path))
  (collected.insertionSort (fun a b => strLe a b = true), logs)

/-- Modelled from the spec (§4.2, §7): constructing the splitter with
`chunk_overlap ≥ chunk_size` is a ConfigurationError that fails fast; the
validation lives in the splitter constructor, which `main` only reaches
after gathering files.  (Not part of the repository sources.) -/
def mkSplitter (n ov : Nat) : Except String Unit :=
  if n ≤ ov then
    Except.error "ConfigurationError: chunk_overlap must be smaller than chunk_size"
  else Except.ok ()

/-- Outcome of a completed run: the log lines printed, and the records
written to the output file (`none` when the output file was never
opened). -/
structure MainResult where
  logs : List String
  output : Option (List JsonVal)

/-- From src (`main`): gather files; with none, print a message and stop
before constructing the splitter; otherwise construct the splitter (whose
constructor validates the configuration) and process every file in order,
writing all records to the output file.  An uncaught configuration error
surfaces as `Except.error`. -/
def main (fs : FileSys) (inputs : List String) (outputPath : String)
    (n ov : Nat) : Except String MainResult :=
  let g := gather_files fs inputs
  if g.1.isEmpty then
    Except.ok ⟨g.2 ++ ["No input files found."], none⟩
  else
    match mkSplitter n ov with
    | Except.error e => Except.error e
    | Except.ok _ =>
      let results := g.1.map (fun fp => process_file (fs.readDoc fp) fp n ov none)
      Except.ok
        ⟨g.2 ++ results.flatMap (fun r => r.2) ++ ["Done. Output written to " ++ outputPath],
         some (results.flatMap (fun r => r.1))⟩

/-- Source-derived condition under which `extract_metadata` discovers a
title: a title element whose string is non-empty. -/
def titleFound (soup : NodeList) : Bool :=
  match findTag "title" soup with
  | some tn =>
    match nodeString tn with
    | some s => s != ""
    | none => false
  | none => false

/-- Source-derived condition: an author meta tag with non-empty content. -/
def metaAuthorFound (soup : NodeList) : Bool :=
  match findMetaWith "name" "author" soup with
  | some an =>
    match getAttr (nodeAttrs an) "content" with
    | some c => c != ""
    | none => false
  | none => false

/-- Source-derived condition: some element carries the class `author`. -/
def classAuthorFound (soup : NodeList) : Bool :=
  (findClass "author" soup).isSome

/-- Source-derived condition: a non-empty `article:published_time` meta
property. -/
def pubTimeFound (soup : NodeList) : Bool :=
  match findMetaWith "property" "article:published_time" soup with
  | some dm =>
    match getAttr (nodeAttrs dm) "content" with
    | some c => c != ""
    | none => false
  | none => false

/-- No element tagged `t` occurs strictly inside an element whose tag is in
`outer`. -/
def noneInside (outer : List String) (t : String) : NodeList → Bool
  | NodeList.nil => true
  | NodeList.cons (Node.text _) rest => noneInside outer t rest
  | NodeList.cons (Node.elem u _ cs) rest =>
    (if u ∈ outer then countTag t cs == 0 else noneInside outer t cs)
      && noneInside outer t rest

/-- The value of the `chunk` key inside a record's `metadata` object. -/
def entryChunk (e : JsonVal) : Option JsonVal :=
  (objGet "metadata" e).bind (objGet "chunk")

/-- The value of a record's `content` key. -/
def entryContent (e : JsonVal) : Option JsonVal :=
  objGet "content" e

/-- The keys of a record's `metadata` object. -/
def entryMetaKeys (e : JsonVal) : List String :=
  match objGet "metadata" e with
  | some m => objKeys m
  | none => []

/-! ### Concrete fixtures used by examples, witnesses and counterexamples -/

/-- A file system with a directory `docs` holding a `.txt` and an `.html`
file, one directly-named non-markup file, and nothing else. -/
def exMixedFS : FileSys where
  isDir := fun p => p == "docs"
  isFile := fun p => p == "notes.txt"
  walk := fun p => if p == "docs" then [("docs", ["a.txt", "b.html"])] else []
  readDoc := fun _ => Except.error "unreadable"

/-- A file system with no existing paths at all. -/
def emptyFS : FileSys where
  isDir := fun _ => false
  isFile := fun _ => false
  walk := fun _ => []
  readDoc := fun _ => Except.error "missing"

/-- A document whose boilerplate tags are nested: a header containing a
nav, followed by two more navs. -/
def exNested : NodeList :=
  nlist [Node.elem "body" []
    (nlist [Node.elem "header" [] (nlist [Node.elem "nav" [] (nlist [Node.text "menu one"])]),
     Node.elem "nav" [] (nlist [Node.text "menu two"]),
     Node.elem "nav" [] (nlist [Node.text "menu three"])])]

/-- The spec's metadata example: a document with a title element and an
author meta tag, no time element and no published-time meta property. -/
def exTitleAuthorDoc : NodeList :=
  nlist [Node.elem "html" []
    (nlist [Node.elem "head" []
      (nlist [Node.elem "title" [] (nlist [Node.text "Hello"]),
       Node.elem "meta" [("name", "author"), ("content", "Jane")] NodeList.nil]),
     Node.elem "body" [] (nlist [Node.elem "p" [] (nlist [Node.text "Body text"])])])]

/-- A document carrying a time element with a `datetime` attribute. -/
def exTimeDoc : NodeList :=
  nlist [Node.elem "article" []
    (nlist [Node.elem "time" [("datetime", "2024-01-02")] (nlist [Node.text "Jan 2"]),
     Node.elem "p" [] (nlist [Node.text "Dated text"])])]

/-- A document whose normalization yields no text: only script content. -/
def exEmptyDoc : NodeList :=
  nlist [Node.elem "div" [] (nlist [Node.elem "script" [] (nlist [Node.text "var x = 1"])])]

/-- A minimal one-text-node document. -/
def exTinyDoc : NodeList := nlist [Node.text "hi"]

/-- A document whose boilerplate elements are not nested inside each
other: one header and two sibling navs. -/
def exSeparatedDoc : NodeList :=
  nlist [Node.elem "header" [] (nlist [Node.text "top"]),
         Node.elem "nav" [] (nlist [Node.text "menu one"]),
         Node.elem "nav" [] (nlist [Node.text "menu two"])]

/-- A file system with one readable document, one empty-content document,
and one undecodable document, all named directly. -/
def batchFS : FileSys where
  isDir := fun _ => false
  isFile := fun p => p == "good.html" || p == "empty.html" || p == "bad.html"
  walk := fun _ => []
  readDoc := fun p =>
    if p == "good.html" then Except.ok exTitleAuthorDoc
    else if p == "empty.html" then Except.ok exEmptyDoc
    else Except.error "decode failure"

/-!
The structurally recursive tree traversals unfold aggressively during
definitional reduction on abstract arguments; the lemmas below force the
generation of their equation lemmas, after which the definitions are made
irreducible for elaboration (their equation lemmas and kernel evaluation
are unaffected).
-/

theorem stripTags_nil (ts : List String) : stripTags ts NodeList.nil = NodeList.nil := by
  simp [stripTags]

theorem countTag_nil (t : String) : countTag t NodeList.nil = 0 := by
  simp [countTag]

theorem findTag_nil (t : String) : findTag t NodeList.nil = none := by
  simp [findTag]

theorem dropFirstTag_nil (t : String) :
    dropFirstTag t NodeList.nil = (NodeList.nil, false) := by
  simp [dropFirstTag]

theorem collectTexts_nil : collectTexts NodeList.nil = [] := by
  simp [collectTexts]

theorem findMetaWith_nil (k v : String) : findMetaWith k v NodeList.nil = none := by
  simp [findMetaWith]

theorem findClass_nil (c : String) : findClass c NodeList.nil = none := by
  simp [findClass]

theorem noneInside_nil (outer : List String) (t : String) :
    noneInside outer t NodeList.nil = true := by
  simp [noneInside]

/-! ### Tag-count lemmas for clean_html -/

theorem countTag_stripTags_zero (ts : List String) (t : String) (ht : t ∈ ts) :
    ∀ ns : NodeList, countTag t (stripTags ts ns) = 0
  | NodeList.nil => by simp [stripTags, countTag]
  | NodeList.cons (Node.text s) rest => by
    simp only [stripTags, countTag]
    exact countTag_stripTags_zero ts t ht rest
  | NodeList.cons (Node.elem u a cs) rest => by
    simp only [stripTags]
    by_cases hu : u ∈ ts
    · rw [if_pos hu]
      exact countTag_stripTags_zero ts t ht rest
    · rw [if_neg hu]
      simp only [countTag]
      rw [countTag_stripTags_zero ts t ht cs, countTag_stripTags_zero ts t ht rest,
        if_neg (show ¬u = t from fun h => hu (h ▸ ht))]

theorem countTag_stripTags_le (ts : List String) (t : String) :
    ∀ ns : NodeList, countTag t (stripTags ts ns) ≤ countTag t ns
  | NodeList.nil => by simp [stripTags]
  | NodeList.cons (Node.text s) rest => by
    simp only [stripTags, countTag]
    exact countTag_stripTags_le ts t rest
  | NodeList.cons (Node.elem u a cs) rest => by
    simp only [stripTags]
    by_cases hu : u ∈ ts
    · rw [if_pos hu]
      have h1 := countTag_stripTags_le ts t rest
      simp only [countTag]
      omega
    · rw [if_neg hu]
      simp only [countTag]
      have h1 := countTag_stripTags_le ts t cs
      have h2 := countTag_stripTags_le ts t rest
      omega

theorem countTag_dropFirstTag_le (u t : String) :
    ∀ ns : NodeList, countTag t (dropFirstTag u ns).1 ≤ countTag t ns
  | NodeList.nil => by simp [dropFirstTag]
  | NodeList.cons (Node.text s) rest => by
    simp only [dropFirstTag, countTag]
    exact countTag_dropFirstTag_le u t rest
  | NodeList.cons (Node.elem w a cs) rest => by
    simp only [dropFirstTag]
    by_cases hw : w = u
    · rw [if_pos hw]
      simp only [countTag]
      omega
    · rw [if_neg hw]
      by_cases hrc : (dropFirstTag u cs).2 = true
      · rw [if_pos hrc]
        simp only [countTag]
        have h1 := countTag_dropFirstTag_le u t cs
        omega
      · rw [if_neg hrc]
        simp only [countTag]
        have h2 := countTag_dropFirstTag_le u t rest
        omega

theorem dropFirstTag_no_op (t : String) :
    ∀ ns : NodeList, countTag t ns = 0 → dropFirstTag t ns = (ns, false)
  | NodeList.nil, _ => by simp [dropFirstTag]
  | NodeList.cons (Node.text s) rest, h => by
    simp only [countTag] at h
    simp only [dropFirstTag, dropFirstTag_no_op t rest h]
  | NodeList.cons (Node.elem u a cs) rest, h => by
    simp only [countTag] at h
    have hut : ¬(u = t) := by
      intro he
      rw [if_pos he] at h
      omega
    rw [if_neg hut] at h
    have hcs : countTag t cs = 0 := by omega
    have hrest : countTag t rest = 0 := by omega
    simp only [dropFirstTag, if_neg hut, dropFirstTag_no_op t cs hcs,
      dropFirstTag_no_op t rest hrest]
    simp

theorem dropFirstTag_not_found (t : String) :
    ∀ ns : NodeList, (dropFirstTag t ns).2 = false → countTag t ns = 0
  | NodeList.nil, _ => by simp [countTag]
  | NodeList.cons (Node.text s) rest, h => by
    simp only [dropFirstTag] at h
    simp only [countTag]
    exact dropFirstTag_not_found t rest h
  | NodeList.cons (Node.elem u a cs) rest, h => by
    simp only [dropFirstTag] at h
    by_cases hu : u = t
    · rw [if_pos hu] at h
      simp at h
    · rw [if_neg hu] at h
      by_cases hrc : (dropFirstTag t cs).2 = true
      · rw [if_pos hrc] at h
        simp at h
      · rw [if_neg hrc] at h
        have h1 : countTag t cs = 0 := dropFirstTag_not_found t cs (by simpa using hrc)
        have h2 : countTag t rest = 0 := dropFirstTag_not_found t rest h
        simp only [countTag, h1, h2, if_neg hu]

theorem dropFirstTag_found_count (t : String) (ns : NodeList)
    (h : (dropFirstTag t ns).2 = true) : 1 ≤ countTag t ns := by
  by_contra hc
  have h0 : countTag t ns = 0 := by omega
  rw [dropFirstTag_no_op t ns h0] at h
  simp at h

theorem dropFirstTag_decrement (outer : List String) (t : String) (htout : t ∈ outer) :
    ∀ ns : NodeList, noneInside outer t ns = true → 1 ≤ countTag t ns →
      countTag t (dropFirstTag t ns).1 = countTag t ns - 1
  | NodeList.nil, _, hge => by
    simp [countTag] at hge
  | NodeList.cons (Node.text s) rest, hsep, hge => by
    simp only [noneInside] at hsep
    have hge2 : 1 ≤ countTag t rest := by
      simp only [countTag] at hge
      exact hge
    have hres := dropFirstTag_decrement outer t htout rest hsep hge2
    simp only [dropFirstTag, countTag]
    exact hres
  | NodeList.cons (Node.elem u a cs) rest, hsep, hge => by
    simp only [noneInside, Bool.and_eq_true] at hsep
    obtain ⟨hsep1, hsep2⟩ := hsep
    simp only [dropFirstTag]
    by_cases hu : u = t
    · rw [if_pos hu]
      have hu_out : u ∈ outer := hu.symm ▸ htout
      rw [if_pos hu_out] at hsep1
      have hcs0 : countTag t cs = 0 := by simpa using hsep1
      simp only [countTag, if_pos hu, hcs0]
      omega
    · rw [if_neg hu]
      by_cases hrc : (dropFirstTag t cs).2 = true
      · rw [if_pos hrc]
        have hge_cs : 1 ≤ countTag t cs := dropFirstTag_found_count t cs hrc
        have hsep_cs : noneInside outer t cs = true := by
          by_cases huo : u ∈ outer
          · rw [if_pos huo] at hsep1
            have : countTag t cs = 0 := by simpa using hsep1
            omega
          · rw [if_neg huo] at hsep1
            exact hsep1
        have hdec := dropFirstTag_decrement outer t htout cs hsep_cs hge_cs
        simp only [countTag, if_neg hu, hdec]
        omega
      · rw [if_neg hrc]
        have hcs0 : countTag t cs = 0 := dropFirstTag_not_found t cs (by simpa using hrc)
        have hge_rest : 1 ≤ countTag t rest := by
          simp only [countTag, if_neg hu, hcs0] at hge
          omega
        have hdec := dropFirstTag_decrement outer t htout rest hsep2 hge_rest
        simp only [countTag, if_neg hu, hcs0, hdec]
        omega

theorem dropFirstTag_other (outer : List String) (u t : String) (hut : u ≠ t)
    (huo : u ∈ outer) :
    ∀ ns : NodeList, noneInside outer t ns = true →
      countTag t (dropFirstTag u ns).1 = countTag t ns
  | NodeList.nil, _ => by simp [dropFirstTag]
  | NodeList.cons (Node.text s) rest, hsep => by
    simp only [noneInside] at hsep
    simp only [dropFirstTag, countTag]
    exact dropFirstTag_other outer u t hut huo rest hsep
  | NodeList.cons (Node.elem w a cs) rest, hsep => by
    simp only [noneInside, Bool.and_eq_true] at hsep
    obtain ⟨hsep1, hsep2⟩ := hsep
    simp only [dropFirstTag]
    by_cases hw : w = u
    · rw [if_pos hw]
      have hw_out : w ∈ outer := hw.symm ▸ huo
      rw [if_pos hw_out] at hsep1
      have hcs0 : countTag t cs = 0 := by simpa using hsep1
      have hwt : ¬(w = t) := by
        rw [hw]
        exact hut
      simp only [countTag, if_neg hwt, hcs0]
      omega
    · rw [if_neg hw]
      by_cases hrc : (dropFirstTag u cs).2 = true
      · rw [if_pos hrc]
        have hceq : countTag t (dropFirstTag u cs).1 = countTag t cs := by
          by_cases hwo : w ∈ outer
          · rw [if_pos hwo] at hsep1
            have hcs0 : countTag t cs = 0 := by simpa using hsep1
            have hle := countTag_dropFirstTag_le u t cs
            omega
          · rw [if_neg hwo] at hsep1
            exact dropFirstTag_other outer u t hut huo cs hsep1
        simp only [countTag, hceq]
      · rw [if_neg hrc]
        simp only [countTag, dropFirstTag_other outer u t hut huo rest hsep2]


theorem noneInside_stripTags (outer : List String) (t : String) (ts : List String) :
    ∀ ns : NodeList, noneInside outer t ns = true →
      noneInside outer t (stripTags ts ns) = true
  | NodeList.nil, _ => by simp [stripTags, noneInside]
  | NodeList.cons (Node.text s) rest, h => by
    simp only [noneInside] at h
    simp only [stripTags, noneInside]
    exact noneInside_stripTags outer t ts rest h
  | NodeList.cons (Node.elem u a cs) rest, h => by
    simp only [noneInside, Bool.and_eq_true] at h
    obtain ⟨h1, h2⟩ := h
    simp only [stripTags]
    by_cases hu : u ∈ ts
    · rw [if_pos hu]
      exact noneInside_stripTags outer t ts rest h2
    · rw [if_neg hu]
      simp only [noneInside, Bool.and_eq_true]
      refine ⟨?_, noneInside_stripTags outer t ts rest h2⟩
      by_cases huo : u ∈ outer
      · rw [if_pos huo] at h1 ⊢
        have hcs0 : countTag t cs = 0 := by simpa using h1
        have hle := countTag_stripTags_le ts t cs
        have : countTag t (stripTags ts cs) = 0 := by omega
        simp [this]
      · rw [if_neg huo] at h1 ⊢
        exact noneInside_stripTags outer t ts cs h1

theorem noneInside_dropFirstTag (outer : List String) (t u : String) :
    ∀ ns : NodeList, noneInside outer t ns = true →
      noneInside outer t (dropFirstTag u ns).1 = true
  | NodeList.nil, _ => by simp [dropFirstTag, noneInside]
  | NodeList.cons (Node.text s) rest, h => by
    simp only [noneInside] at h
    simp only [dropFirstTag, noneInside]
    exact noneInside_dropFirstTag outer t u rest h
  | NodeList.cons (Node.elem w a cs) rest, h => by
    simp only [noneInside, Bool.and_eq_true] at h
    obtain ⟨h1, h2⟩ := h
    simp only [dropFirstTag]
    by_cases hw : w = u
    · rw [if_pos hw]
      exact h2
    · rw [if_neg hw]
      by_cases hrc : (dropFirstTag u cs).2 = true
      · rw [if_pos hrc]
        simp only [noneInside, Bool.and_eq_true]
        refine ⟨?_, h2⟩
        by_cases hwo : w ∈ outer
        · rw [if_pos hwo] at h1 ⊢
          have hcs0 : countTag t cs = 0 := by simpa using h1
          have hle := countTag_dropFirstTag_le u t cs
          have : countTag t (dropFirstTag u cs).1 = 0 := by omega
          simp [this]
        · rw [if_neg hwo] at h1 ⊢
          exact noneInside_dropFirstTag outer t u cs h1
      · rw [if_neg hrc]
        simp only [noneInside, Bool.and_eq_true]
        exact ⟨h1, noneInside_dropFirstTag outer t u rest h2⟩

theorem countTag_stripTags_eq (outer ts : List String) (t : String) (htn : t ∉ ts)
    (hsub : ∀ x ∈ ts, x ∈ outer) :
    ∀ ns : NodeList, noneInside outer t ns = true →
      countTag t (stripTags ts ns) = countTag t ns
  | NodeList.nil, _ => by simp [stripTags]
  | NodeList.cons (Node.text s) rest, h => by
    simp only [noneInside] at h
    simp only [stripTags, countTag]
    exact countTag_stripTags_eq outer ts t htn hsub rest h
  | NodeList.cons (Node.elem u a cs) rest, h => by
    simp only [noneInside, Bool.and_eq_true] at h
    obtain ⟨h1, h2⟩ := h
    simp only [stripTags]
    by_cases hu : u ∈ ts
    · rw [if_pos hu]
      have huo : u ∈ outer := hsub u hu
      rw [if_pos huo] at h1
      have hcs0 : countTag t cs = 0 := by simpa using h1
      have hut : ¬(u = t) := fun he => htn (he ▸ hu)
      rw [countTag_stripTags_eq outer ts t htn hsub rest h2]
      simp only [countTag, if_neg hut, hcs0]
      omega
    · rw [if_neg hu]
      simp only [countTag]
      have hcs_eq : countTag t (stripTags ts cs) = countTag t cs := by
        by_cases huo : u ∈ outer
        · rw [if_pos huo] at h1
          have hcs0 : countTag t cs = 0 := by simpa using h1
          have hle := countTag_stripTags_le ts t cs
          omega
        · rw [if_neg huo] at h1
          exact countTag_stripTags_eq outer ts t htn hsub cs h1
      rw [hcs_eq, countTag_stripTags_eq outer ts t htn hsub rest h2]

theorem countTag_fold_le (t : String) (tags : List String) :
    ∀ ns : NodeList,
      countTag t (tags.foldl (fun acc u => (dropFirstTag u acc).1) ns) ≤ countTag t ns := by
  induction tags with
  | nil =>
    intro ns
    simp
  | cons u tags ih =>
    intro ns
    simp only [List.foldl_cons]
    exact le_trans (ih _) (countTag_dropFirstTag_le u t ns)

theorem noneInside_fold (outer : List String) (t : String) (tags : List String) :
    ∀ ns : NodeList, noneInside outer t ns = true →
      noneInside outer t (tags.foldl (fun acc u => (dropFirstTag u acc).1) ns) = true := by
  induction tags with
  | nil =>
    intro ns h
    simpa using h
  | cons u tags ih =>
    intro ns h
    simp only [List.foldl_cons]
    exact ih _ (noneInside_dropFirstTag outer t u ns h)

theorem countTag_fold_other (outer : List String) (t : String) (tags : List String)
    (htn : t ∉ tags) (hsub : ∀ x ∈ tags, x ∈ outer) :
    ∀ ns : NodeList, noneInside outer t ns = true →
      countTag t (tags.foldl (fun acc u => (dropFirstTag u acc).1) ns) = countTag t ns := by
  induction tags with
  | nil =>
    intro ns _
    simp
  | cons u tags ih =>
    intro ns h
    have hut : u ≠ t := fun he => htn (he ▸ List.mem_cons_self u tags)
    have huo : u ∈ outer := hsub u (List.mem_cons_self _ _)
    simp only [List.foldl_cons]
    rw [ih (fun hm => htn (List.mem_cons_of_mem _ hm))
        (fun x hx => hsub x (List.mem_cons_of_mem _ hx)) _
        (noneInside_dropFirstTag outer t u ns h),
      dropFirstTag_other outer u t hut huo ns h]

theorem countTag_fold_target (outer : List String) (t : String) (htout : t ∈ outer) :
    ∀ tags : List String, t ∈ tags → tags.Nodup → (∀ x ∈ tags, x ∈ outer) →
      ∀ ns : NodeList, noneInside outer t ns = true →
        countTag t (tags.foldl (fun acc u => (dropFirstTag u acc).1) ns)
          = countTag t ns - min 1 (countTag t ns) := by
  intro tags
  induction tags with
  | nil =>
    intro hmem
    simp at hmem
  | cons u tags ih =>
    intro hmem hnd hsub ns hsep
    simp only [List.foldl_cons]
    by_cases hu : u = t
    · subst hu
      have hnotin : u ∉ tags := (List.nodup_cons.mp hnd).1
      have hsub' : ∀ x ∈ tags, x ∈ outer := fun x hx => hsub x (List.mem_cons_of_mem _ hx)
      by_cases hge : 1 ≤ countTag u ns
      · rw [countTag_fold_other outer u tags hnotin hsub' _
            (noneInside_dropFirstTag outer u u ns hsep),
          dropFirstTag_decrement outer u htout ns hsep hge,
          Nat.min_eq_left hge]
      · have h0 : countTag u ns = 0 := by omega
        rw [dropFirstTag_no_op u ns h0]
        rw [countTag_fold_other outer u tags hnotin hsub' ns hsep, h0]
        simp
    · have hmem2 : t ∈ tags := by
        rcases List.mem_cons.mp hmem with he | hm
        · exact absurd he.symm hu
        · exact hm
      have hnd2 := (List.nodup_cons.mp hnd).2
      have huo : u ∈ outer := hsub u (List.mem_cons_self _ _)
      rw [ih hmem2 hnd2 (fun x hx => hsub x (List.mem_cons_of_mem _ hx)) _
          (noneInside_dropFirstTag outer t u ns hsep),
        dropFirstTag_other outer u t hu huo ns hsep]

attribute [irreducible] stripTags countTag findTag dropFirstTag collectTexts
  findMetaWith findClass noneInside

/-! ### Lemmas about the recursive splitter -/

theorem joinSep_append_single (sep d : Txt) (buf : List Txt) (h : buf ≠ []) :
    joinSep sep (buf ++ [d]) = joinSep sep buf ++ sep ++ d := by
  induction buf with
  | nil => exact absurd rfl h
  | cons b bs ih =>
    cases bs with
    | nil => simp [joinSep]
    | cons b' bs' =>
      have hstep := ih (by simp)
      simp only [List.cons_append, joinSep, List.append_eq] at hstep ⊢
      rw [hstep]
      simp [List.append_assoc]

theorem shrinkBuf_fits (n ov : Nat) (sep d : Txt) (hd : d.length ≤ n) :
    ∀ buf : List Txt, (joinSep sep (shrinkBuf n ov sep d buf ++ [d])).length ≤ n := by
  intro buf
  induction buf with
  | nil => simpa [shrinkBuf, joinSep] using hd
  | cons b bs ih =>
    rw [shrinkBuf]
    by_cases hc : n < (joinSep sep ((b :: bs) ++ [d])).length
        ∨ ov < (joinSep sep (b :: bs)).length
    · rw [if_pos hc]
      exact ih
    · rw [if_neg hc]
      push_neg at hc
      exact hc.1

theorem mergeLoop_le (n ov : Nat) (sep : Txt) (ds : List Txt) :
    ∀ buf, (∀ d ∈ ds, d.length ≤ n) → (joinSep sep buf).length ≤ n →
      ∀ c ∈ mergeLoop n ov sep ds buf, c.length ≤ n := by
  induction ds with
  | nil =>
    intro buf _ hbuf c hc
    rw [mergeLoop] at hc
    by_cases hbe : buf.isEmpty
    · rw [if_pos hbe] at hc
      simp at hc
    · rw [if_neg hbe] at hc
      simp only [List.mem_singleton] at hc
      exact hc ▸ hbuf
  | cons d ds ih =>
    intro buf hds hbuf c hc
    rw [mergeLoop] at hc
    by_cases hfit : (joinSep sep (buf ++ [d])).length ≤ n
    · rw [if_pos hfit] at hc
      exact ih _ (fun x hx => hds x (List.mem_cons_of_mem _ hx)) hfit c hc
    · rw [if_neg hfit] at hc
      rw [List.mem_append] at hc
      rcases hc with hc | hc
      · by_cases hbe : buf.isEmpty
        · rw [if_pos hbe] at hc
          simp at hc
        · rw [if_neg hbe] at hc
          simp only [List.mem_singleton] at hc
          exact hc ▸ hbuf
      · exact ih _ (fun x hx => hds x (List.mem_cons_of_mem _ hx))
          (shrinkBuf_fits n ov sep d (hds d (List.mem_cons_self _ _)) buf) c hc

theorem goFrags_le (n ov : Nat) (sep : Txt) (recur : Txt → List Txt) (fs : List Txt) :
    ∀ good, (∀ g ∈ good, g.length ≤ n) →
      (∀ f ∈ fs, f.length ≤ n ∨ ∀ c ∈ recur f, c.length ≤ n) →
      ∀ c ∈ goFrags n ov sep recur fs good, c.length ≤ n := by
  induction fs with
  | nil =>
    intro good hg _ c hc
    rw [goFrags] at hc
    exact mergeLoop_le n ov sep good [] hg (by simp [joinSep]) c hc
  | cons f fs ih =>
    intro good hg hfs c hc
    rw [goFrags] at hc
    by_cases hf : f.length ≤ n
    · rw [if_pos hf] at hc
      refine ih (good ++ [f]) ?_ (fun x hx => hfs x (List.mem_cons_of_mem _ hx)) c hc
      intro g hgm
      rcases List.mem_append.mp hgm with hgm | hgm
      · exact hg g hgm
      · simp only [List.mem_singleton] at hgm
        exact hgm ▸ hf
    · rw [if_neg hf] at hc
      simp only [List.mem_append] at hc
      rcases hc with (hc | hc) | hc
      · exact mergeLoop_le n ov sep good [] hg (by simp [joinSep]) c hc
      · exact ((hfs f (List.mem_cons_self _ _)).resolve_left hf) c hc
      · exact ih [] (by simp) (fun x hx => hfs x (List.mem_cons_of_mem _ hx)) c hc

theorem splitSeps_le (n ov : Nat) (hn : 0 < n) :
    ∀ seps text, [] ∈ seps → ∀ c ∈ splitSeps n ov seps text, c.length ≤ n := by
  intro seps
  induction seps with
  | nil =>
    intro text h
    simp at h
  | cons s rest ih =>
    intro text hmem c hc
    rw [splitSeps] at hc
    by_cases hs : s = []
    · rw [if_pos hs] at hc
      refine goFrags_le n ov [] _ _ [] (by simp) ?_ c hc
      intro f hf
      left
      rcases List.mem_map.mp hf with ⟨a, _, rfl⟩
      simpa using hn
    · have hrest : [] ∈ rest := by
        rcases List.mem_cons.mp hmem with heq | hmem'
        · exact absurd heq.symm hs
        · exact hmem'
      rw [if_neg hs] at hc
      by_cases ho : occursIn s text = true
      · rw [if_pos ho] at hc
        refine goFrags_le n ov s _ _ [] (by simp) ?_ c hc
        intro f _
        exact Or.inr (fun c' hc' => ih f hrest c' hc')
      · rw [if_neg ho] at hc
        exact ih text hrest c hc

theorem occursIn_head_mem (a : Char) (s : Txt) :
    ∀ t, occursIn (a :: s) t = true → a ∈ t := by
  intro t
  induction t with
  | nil =>
    intro h
    simp [occursIn, isPrefOf] at h
  | cons c t ih =>
    intro h
    rw [occursIn, Bool.or_eq_true] at h
    rcases h with h | h
    · rw [isPrefOf, Bool.and_eq_true] at h
      have : a = c := by simpa using h.1
      exact this ▸ List.mem_cons_self _ _
    · exact List.mem_cons_of_mem _ (ih h)

theorem fallbackShape_cons (n : Nat) (c : Txt) (cs : List Txt) (h : cs ≠ []) :
    fallbackShape n (c :: cs) = ((c.length == n) && fallbackShape n cs) := by
  cases cs with
  | nil => exact absurd rfl h
  | cons d ds => rfl

theorem mergeLoop_ne_nil (n ov : Nat) (sep : Txt) :
    ∀ ds buf, buf ≠ [] → mergeLoop n ov sep ds buf ≠ [] := by
  intro ds
  induction ds with
  | nil =>
    intro buf h
    rw [mergeLoop]
    rw [if_neg (by simpa [List.isEmpty_iff] using h)]
    simp
  | cons d ds ih =>
    intro buf h
    rw [mergeLoop]
    by_cases hfit : (joinSep sep (buf ++ [d])).length ≤ n
    · rw [if_pos hfit]
      exact ih (buf ++ [d]) (by simp)
    · rw [if_neg hfit]
      intro hco
      rw [List.append_eq_nil] at hco
      exact ih (shrinkBuf n ov sep d buf ++ [d]) (by simp) hco.2

theorem joinSep_nil_len :
    ∀ buf : List Txt, (∀ b ∈ buf, b.length = 1) →
      (joinSep [] buf).length = buf.length := by
  intro buf
  induction buf with
  | nil => simp [joinSep]
  | cons b bs ih =>
    intro h
    cases bs with
    | nil =>
      simpa [joinSep] using h b (List.mem_cons_self _ _)
    | cons b' bs' =>
      have hb : b.length = 1 := h b (List.mem_cons_self _ _)
      have htail := ih (fun x hx => h x (List.mem_cons_of_mem _ hx))
      simp only [joinSep, List.length_append, List.length_cons, List.length_nil] at htail ⊢
      omega

theorem shrinkBuf_mem (n ov : Nat) (sep d : Txt) :
    ∀ buf, ∀ x ∈ shrinkBuf n ov sep d buf, x ∈ buf := by
  intro buf
  induction buf with
  | nil =>
    intro x hx
    simp [shrinkBuf] at hx
  | cons b bs ih =>
    intro x hx
    rw [shrinkBuf] at hx
    by_cases hc : n < (joinSep sep ((b :: bs) ++ [d])).length
        ∨ ov < (joinSep sep (b :: bs)).length
    · rw [if_pos hc] at hx
      exact List.mem_cons_of_mem _ (ih x hx)
    · rw [if_neg hc] at hx
      exact hx

theorem mergeLoop_fallback (n ov : Nat) (hov : ov < n) :
    ∀ (ds buf : List Txt), (∀ d ∈ ds, d.length = 1) → (∀ b ∈ buf, b.length = 1) →
      buf.length ≤ n → fallbackShape n (mergeLoop n ov [] ds buf) = true := by
  have hn : 0 < n := Nat.lt_of_le_of_lt (Nat.zero_le ov) hov
  intro ds
  induction ds with
  | nil =>
    intro buf _ hb hlen
    rw [mergeLoop]
    by_cases hbe : buf.isEmpty
    · rw [if_pos hbe]
      rfl
    · rw [if_neg hbe]
      have : (joinSep [] buf).length = buf.length := joinSep_nil_len buf hb
      simp [fallbackShape, this, hlen]
  | cons d ds ih =>
    intro buf hd hb hlen
    have hd1 : d.length = 1 := hd d (List.mem_cons_self _ _)
    have hball : ∀ b ∈ buf ++ [d], b.length = 1 := by
      intro x hx
      rcases List.mem_append.mp hx with hx | hx
      · exact hb x hx
      · simp only [List.mem_singleton] at hx
        exact hx ▸ hd1
    have hjd : (joinSep [] (buf ++ [d])).length = buf.length + 1 := by
      rw [joinSep_nil_len _ hball]
      simp
    rw [mergeLoop]
    by_cases hfit : (joinSep [] (buf ++ [d])).length ≤ n
    · rw [if_pos hfit]
      exact ih (buf ++ [d]) (fun x hx => hd x (List.mem_cons_of_mem _ hx)) hball
        (by simp only [List.length_append, List.length_cons, List.length_nil]; omega)
    · rw [if_neg hfit]
      have hblen : buf.length = n := by omega
      have hbne : buf ≠ [] := by
        intro hcontra
        rw [hcontra] at hblen
        simp at hblen
        omega
      rw [if_neg (by simpa [List.isEmpty_iff] using hbne)]
      have hb1 : ∀ b ∈ shrinkBuf n ov [] d buf ++ [d], b.length = 1 := by
        intro x hx
        rcases List.mem_append.mp hx with hx | hx
        · exact hb x (shrinkBuf_mem n ov [] d buf x hx)
        · simp only [List.mem_singleton] at hx
          exact hx ▸ hd1
      have hlen' : (shrinkBuf n ov [] d buf ++ [d]).length ≤ n := by
        rw [← joinSep_nil_len _ hb1]
        exact shrinkBuf_fits n ov [] d (by omega) buf
      have hrest := ih (shrinkBuf n ov [] d buf ++ [d])
        (fun x hx => hd x (List.mem_cons_of_mem _ hx)) hb1 hlen'
      have hrest_ne : mergeLoop n ov [] ds (shrinkBuf n ov [] d buf ++ [d]) ≠ [] :=
        mergeLoop_ne_nil n ov [] ds _ (by simp)
      rw [List.singleton_append, fallbackShape_cons n _ _ hrest_ne]
      rw [Bool.and_eq_true]
      constructor
      · simp [joinSep_nil_len buf hb, hblen]
      · exact hrest

theorem goFrags_all_good (n ov : Nat) (sep : Txt) (recur : Txt → List Txt) :
    ∀ fs good, (∀ f ∈ fs, f.length ≤ n) →
      goFrags n ov sep recur fs good = mergeLoop n ov sep (good ++ fs) [] := by
  intro fs
  induction fs with
  | nil =>
    intro good _
    rw [goFrags, List.append_nil]
  | cons f fs ih =>
    intro good h
    rw [goFrags, if_pos (h f (List.mem_cons_self _ _))]
    rw [ih (good ++ [f]) (fun x hx => h x (List.mem_cons_of_mem _ hx))]
    simp

theorem splitSeps_fallback (n ov : Nat) (hov : ov < n) :
    ∀ seps text, [] ∈ seps → (∀ s ∈ seps, s = [] ∨ occursIn s text = false) →
      fallbackShape n (splitSeps n ov seps text) = true := by
  have hn : 0 < n := Nat.lt_of_le_of_lt (Nat.zero_le ov) hov
  intro seps
  induction seps with
  | nil =>
    intro text h
    simp at h
  | cons s rest ih =>
    intro text hmem hsep
    rw [splitSeps]
    by_cases hs : s = []
    · rw [if_pos hs]
      rw [goFrags_all_good n ov [] _ _ []
        (by
          intro f hf
          rcases List.mem_map.mp hf with ⟨a, _, rfl⟩
          simpa using hn)]
      rw [List.nil_append]
      refine mergeLoop_fallback n ov hov _ [] ?_ (by simp) (by simp)
      intro f hf
      rcases List.mem_map.mp hf with ⟨a, _, rfl⟩
      rfl
    · have hrest : [] ∈ rest := by
        rcases List.mem_cons.mp hmem with heq | hmem'
        · exact absurd heq.symm hs
        · exact hmem'
      have ho : occursIn s text = false := (hsep s (List.mem_cons_self _ _)).resolve_left hs
      rw [if_neg hs, if_neg (by simp [ho])]
      exact ih text hrest (fun x hx => hsep x (List.mem_cons_of_mem _ hx))

/-! ### Claim C1 -/

/-- C1: for every configuration with `chunk_size > chunk_overlap ≥ 0` and
every input text, every chunk returned by the splitter has length at most
`chunk_size`; chunks produced by the no-separator fallback cut (text in
which no non-empty separator occurs) have length exactly `chunk_size`
except the final remainder, which may be shorter. -/
theorem split_text_chunk_bound (n ov : Nat) (text : Txt) (hov : ov < n) :
    (∀ c ∈ split_text n ov text, c.length ≤ n) ∧
    ((∀ ch ∈ text, ch ≠ '\n' ∧ ch ≠ ' ') →
      fallbackShape n (split_text n ov text) = true) := by
  have hn : 0 < n := Nat.lt_of_le_of_lt (Nat.zero_le ov) hov
  constructor
  · intro c hc
    rw [split_text] at hc
    by_cases h0 : text.length = 0
    · rw [if_pos h0] at hc
      simp at hc
    · rw [if_neg h0] at hc
      by_cases h1 : text.length ≤ n
      · rw [if_pos h1] at hc
        simp only [List.mem_singleton] at hc
        exact hc ▸ h1
      · rw [if_neg h1] at hc
        exact splitSeps_le n ov hn defaultSeparators text (by simp [defaultSeparators]) c hc
  · intro hch
    have hnl : ('\n' : Char) ∉ text := fun hm => (hch _ hm).1 rfl
    have hsp : (' ' : Char) ∉ text := fun hm => (hch _ hm).2 rfl
    rw [split_text]
    by_cases h0 : text.length = 0
    · rw [if_pos h0]
      rfl
    · rw [if_neg h0]
      by_cases h1 : text.length ≤ n
      · rw [if_pos h1]
        simp [fallbackShape, h1]
      · rw [if_neg h1]
        refine splitSeps_fallback n ov hov defaultSeparators text
          (by simp [defaultSeparators]) ?_
        intro s hs
        rcases show s = ['\n', '\n'] ∨ s = ['\n'] ∨ s = [' '] ∨ s = [] by
            simpa [defaultSeparators] using hs with rfl | rfl | rfl | rfl
        · right
          cases h : occursIn ['\n', '\n'] text
          · rfl
          · exact absurd (occursIn_head_mem _ _ _ h) hnl
        · right
          cases h : occursIn ['\n'] text
          · rfl
          · exact absurd (occursIn_head_mem _ _ _ h) hnl
        · right
          cases h : occursIn [' '] text
          · rfl
          · exact absurd (occursIn_head_mem _ _ _ h) hsp
        · left
          rfl

/-- Witness for C1 at a concrete configuration and text. -/
theorem split_text_chunk_bound_witness :
    (∀ c ∈ split_text 3 1 ['a', 'b', 'c', 'd', 'e', 'f', 'g', 'h'], c.length ≤ 3) ∧
    fallbackShape 3 (split_text 3 1 ['a', 'b', 'c', 'd', 'e', 'f', 'g', 'h']) = true :=
  ⟨(split_text_chunk_bound 3 1 ['a', 'b', 'c', 'd', 'e', 'f', 'g', 'h'] (by decide)).1,
   (split_text_chunk_bound 3 1 ['a', 'b', 'c', 'd', 'e', 'f', 'g', 'h'] (by decide)).2
     (by decide)⟩

/-! ### Claims C6 and C10: gather_files -/

theorem lexLe_trans :
    ∀ a b c : Txt, lexLe a b = true → lexLe b c = true → lexLe a c = true := by
  intro a
  induction a with
  | nil =>
    intro b c _ _
    rfl
  | cons x s ih =>
    intro b c hab hbc
    cases b with
    | nil => simp [lexLe] at hab
    | cons y t =>
      cases c with
      | nil => simp [lexLe] at hbc
      | cons z u =>
        rw [lexLe] at hab hbc ⊢
        by_cases hxy : x = y
        · subst hxy
          rw [if_pos rfl] at hab
          by_cases hyz : x = z
          · subst hyz
            rw [if_pos rfl] at hbc ⊢
            exact ih t u hab hbc
          · rw [if_neg hyz] at hbc ⊢
            exact hbc
        · rw [if_neg hxy] at hab
          have hlt_xy : x < y := by simpa using hab
          by_cases hyz : y = z
          · subst hyz
            rw [if_neg hxy]
            simpa using hlt_xy
          · rw [if_neg hyz] at hbc
            have hlt_yz : y < z := by simpa using hbc
            have hxz : x < z := lt_trans hlt_xy hlt_yz
            rw [if_neg (ne_of_lt hxz)]
            simpa using hxz

theorem lexLe_total : ∀ a b : Txt, lexLe a b = true ∨ lexLe b a = true := by
  intro a
  induction a with
  | nil =>
    intro b
    left
    rfl
  | cons x s ih =>
    intro b
    cases b with
    | nil =>
      right
      rfl
    | cons y t =>
      by_cases hxy : x = y
      · subst hxy
        rcases ih t with h | h
        · left
          simpa [lexLe] using h
        · right
          simpa [lexLe] using h
      · rcases lt_or_gt_of_ne hxy with h | h
        · left
          simp [lexLe, hxy, h]
        · right
          simp [lexLe, Ne.symm hxy]
          exact h


/-- C6: `gather_files` returns a deterministically sorted flat list; every
returned file is either a directly-named existing file argument or stems
from recursively walking a directory argument and carries a markup
extension (case-insensitively); non-existent paths are reported and
contribute no files; a directory holding one `.txt` and one `.html` file
yields exactly one discovered document. -/
theorem gather_files_spec :
    (∀ (fs : FileSys) (paths : List String),
        List.Sorted (fun a b => strLe a b = true) (gather_files fs paths).1) ∧
    (∀ (fs : FileSys) (paths : List String), ∀ f ∈ (gather_files fs paths).1,
        (∃ p ∈ paths, fs.isDir p = false ∧ fs.isFile p = true ∧ f = p) ∨
        (∃ p ∈ paths, fs.isDir p = true ∧ ∃ rn ∈ fs.walk p, ∃ name ∈ rn.2,
            isHtmlName name = true ∧ f = joinPath rn.1 name)) ∧
    (∀ (fs : FileSys) (paths : List String), ∀ p ∈ paths,
        fs.isDir p = false → fs.isFile p = false →
        ("Skipping non-existent path: " ++ p) ∈ (gather_files fs paths).2) ∧
    (gather_files exMixedFS ["docs"]).1 = ["docs/b.html"] := by
  refine ⟨?_, ?_, ?_, by decide⟩
  · intro fs paths
    have htot : IsTotal String (fun a b => strLe a b = true) :=
      ⟨fun a b => lexLe_total a.data b.data⟩
    have htrans : IsTrans String (fun a b => strLe a b = true) :=
      ⟨fun a b c => lexLe_trans a.data b.data c.data⟩
    exact @List.sorted_insertionSort String _ _ htot htrans _
  · intro fs paths f hf
    simp only [gather_files, List.mem_insertionSort, List.mem_flatMap] at hf
    obtain ⟨p, hp, hfp⟩ := hf
    by_cases hd : fs.isDir p
    · right
      rw [if_pos hd] at hfp
      simp only [List.mem_flatMap, List.mem_map, List.mem_filter] at hfp
      obtain ⟨rn, hrn, name, ⟨hname, hhtml⟩, rfl⟩ := hfp
      exact ⟨p, hp, hd, rn, hrn, name, hname, hhtml, rfl⟩
    · left
      rw [if_neg hd] at hfp
      by_cases hfl : fs.isFile p
      · rw [if_pos hfl] at hfp
        simp only [List.mem_singleton] at hfp
        exact ⟨p, hp, by simpa using hd, hfl, hfp⟩
      · rw [if_neg hfl] at hfp
        simp at hfp
  · intro fs paths p hp hd hf
    simp only [gather_files, List.mem_filterMap]
    exact ⟨p, hp, by rw [hd, hf]; rfl⟩

/-- Witness for C6: the missing path is reported in the logs. -/
theorem gather_files_spec_witness :
    ("Skipping non-existent path: missing") ∈ (gather_files exMixedFS ["missing"]).2 :=
  gather_files_spec.2.2.1 exMixedFS ["missing"] "missing" (by decide) (by decide)
    (by decide)

/-- C10: an input path argument that is an existing regular file is
included in the gathered list regardless of its extension — the markup
filter applies only to directory traversal. -/
theorem gather_files_direct_file (fs : FileSys) (paths : List String) (p : String)
    (hmem : p ∈ paths) (hdir : fs.isDir p = false) (hfile : fs.isFile p = true) :
    p ∈ (gather_files fs paths).1 := by
  simp only [gather_files, List.mem_insertionSort, List.mem_flatMap]
  refine ⟨p, hmem, ?_⟩
  rw [hdir, hfile]
  simp

/-- Witness for C10: the directly-named `.txt` file is gathered. -/
theorem gather_files_direct_file_witness :
    "notes.txt" ∈ (gather_files exMixedFS ["docs", "notes.txt"]).1 :=
  gather_files_direct_file exMixedFS ["docs", "notes.txt"] "notes.txt"
    (by decide) (by decide) (by decide)

/-! ### Claim C2: configuration validation -/

theorem mkSplitter_err (n ov : Nat) (h : n ≤ ov) :
    mkSplitter n ov =
      Except.error "ConfigurationError: chunk_overlap must be smaller than chunk_size" := by
  unfold mkSplitter
  rw [if_pos h]

theorem mkSplitter_ok (n ov : Nat) (h : ov < n) : mkSplitter n ov = Except.ok () := by
  unfold mkSplitter
  rw [if_neg (by omega)]

theorem main_ok_eq (fs : FileSys) (inputs : List String) (out : String) (n ov : Nat)
    (hov : ov < n) (hne : (gather_files fs inputs).1 ≠ []) :
    RagPrep.main fs inputs out n ov = Except.ok
      ⟨(gather_files fs inputs).2
        ++ ((gather_files fs inputs).1.map
              (fun fp => process_file (fs.readDoc fp) fp n ov none)).flatMap (fun r => r.2)
        ++ ["Done. Output written to " ++ out],
       some (((gather_files fs inputs).1.map
              (fun fp => process_file (fs.readDoc fp) fp n ov none)).flatMap (fun r => r.1))⟩ := by
  simp only [main]
  rw [if_neg (by simpa [List.isEmpty_iff] using hne), mkSplitter_ok n ov hov]

/-- C2 counterexample: with `chunk_overlap = chunk_size = 10` and an input
list that yields no files, the program does not reject the configuration —
it stops early with the no-input message and exits normally. -/
theorem main_bad_config_not_rejected_on_empty_input :
    RagPrep.main emptyFS ["corpus"] "output.jsonl" 10 10 =
      Except.ok ⟨["Skipping non-existent path: corpus", "No input files found."], none⟩ := rfl

/-- C2 (amended): when at least one input file is discovered, a
configuration with `chunk_overlap ≥ chunk_size` is rejected by the splitter
constructor before any document is read, chunked or written — the run ends
with the configuration error and no output. -/
theorem main_rejects_bad_config (fs : FileSys) (inputs : List String) (out : String)
    (n ov : Nat) (hov : n ≤ ov) (hne : (gather_files fs inputs).1 ≠ []) :
    RagPrep.main fs inputs out n ov =
      Except.error "ConfigurationError: chunk_overlap must be smaller than chunk_size" := by
  simp only [main]
  rw [if_neg (by simpa [List.isEmpty_iff] using hne), mkSplitter_err n ov hov]

/-- Witness for the amended C2 at a concrete file system and
configuration. -/
theorem main_rejects_bad_config_witness :
    RagPrep.main exMixedFS ["notes.txt"] "out.jsonl" 5 7 =
      Except.error "ConfigurationError: chunk_overlap must be smaller than chunk_size" :=
  main_rejects_bad_config exMixedFS ["notes.txt"] "out.jsonl" 5 7 (by decide) (by decide)

/-! ### Claims C3 and C9: per-document skipping -/

theorem process_file_empty (doc : NodeList) (fp : String) (n ov : Nat)
    (su : Option String) (hempty : (clean_html doc).1 = []) :
    process_file (Except.ok doc) fp n ov su =
      ([], ["Note: no content extracted from " ++ fp]) := by
  simp [process_file, hempty]

theorem process_file_read_error (e fp : String) (n ov : Nat) (su : Option String) :
    process_file (Except.error e) fp n ov su =
      ([], ["Warning: could not read file " ++ fp ++ ": " ++ e]) := rfl

/-- C3: a document whose normalization yields empty text produces zero
chunks and zero output records, a note is logged, and the run is not
aborted — it completes normally and every other document still contributes
its records. -/
theorem empty_content_zero_records (doc : NodeList) (fp : String) (n ov : Nat)
    (su : Option String) (hempty : (clean_html doc).1 = []) :
    process_file (Except.ok doc) fp n ov su =
      ([], ["Note: no content extracted from " ++ fp]) ∧
    (∀ (fs : FileSys) (inputs : List String) (out : String),
      ov < n → fp ∈ (gather_files fs inputs).1 → fs.readDoc fp = Except.ok doc →
      ∃ r : MainResult, RagPrep.main fs inputs out n ov = Except.ok r ∧
        r.output = some (((gather_files fs inputs).1.map
            (fun q => process_file (fs.readDoc q) q n ov none)).flatMap (fun x => x.1)) ∧
        ("Note: no content extracted from " ++ fp) ∈ r.logs) := by
  refine ⟨process_file_empty doc fp n ov su hempty, ?_⟩
  intro fs inputs out hov hmem hread
  refine ⟨_, main_ok_eq fs inputs out n ov hov (List.ne_nil_of_mem hmem), rfl, ?_⟩
  simp only [List.mem_append]
  left
  right
  rw [List.mem_flatMap]
  refine ⟨process_file (fs.readDoc fp) fp n ov none, List.mem_map_of_mem _ hmem, ?_⟩
  rw [hread, process_file_empty doc fp n ov none hempty]
  simp

/-- Witness for C3 at a concrete script-only document. -/
theorem empty_content_zero_records_witness :
    process_file (Except.ok exEmptyDoc) "empty.html" 10 2 none =
      ([], ["Note: no content extracted from " ++ "empty.html"]) :=
  (empty_content_zero_records exEmptyDoc "empty.html" 10 2 none
    (by simp [clean_html, exEmptyDoc, stripTags, removeBoiler, boilerTags, scriptTags,
      dropFirstTag, collectTexts, getText, joinSep, splitOnChar, trimChars, nlist])).1

/-- C9: a document that cannot be read or decoded is logged with its path
and the reason, contributes no output records, and processing continues —
the run completes normally with every other document's records intact. -/
theorem read_error_skipped (e fp : String) (n ov : Nat) (su : Option String) :
    process_file (Except.error e) fp n ov su =
      ([], ["Warning: could not read file " ++ fp ++ ": " ++ e]) ∧
    (∀ (fs : FileSys) (inputs : List String) (out : String),
      ov < n → fp ∈ (gather_files fs inputs).1 → fs.readDoc fp = Except.error e →
      ∃ r : MainResult, RagPrep.main fs inputs out n ov = Except.ok r ∧
        r.output = some (((gather_files fs inputs).1.map
            (fun q => process_file (fs.readDoc q) q n ov none)).flatMap (fun x => x.1)) ∧
        (process_file (fs.readDoc fp) fp n ov none).1 = [] ∧
        ("Warning: could not read file " ++ fp ++ ": " ++ e) ∈ r.logs) := by
  refine ⟨process_file_read_error e fp n ov su, ?_⟩
  intro fs inputs out hov hmem hread
  refine ⟨_, main_ok_eq fs inputs out n ov hov (List.ne_nil_of_mem hmem), rfl, ?_, ?_⟩
  · rw [hread, process_file_read_error e fp n ov none]
  · simp only [List.mem_append]
    left
    right
    rw [List.mem_flatMap]
    refine ⟨process_file (fs.readDoc fp) fp n ov none, List.mem_map_of_mem _ hmem, ?_⟩
    rw [hread, process_file_read_error e fp n ov none]
    simp

/-! ### Association-list lemmas -/

theorem setKey_fst_mem (k v : String) :
    ∀ (m : List (String × String)) (a : String),
      a ∈ (setKey m k v).map Prod.fst ↔ a ∈ m.map Prod.fst ∨ a = k := by
  intro m
  induction m with
  | nil =>
    intro a
    simp [setKey]
  | cons p rest ih =>
    intro a
    rw [setKey]
    by_cases hpk : p.1 = k
    · rw [if_pos hpk]
      simp only [List.map_cons, List.mem_cons, hpk]
      tauto
    · rw [if_neg hpk]
      simp only [List.map_cons, List.mem_cons, ih a]
      tauto

theorem getKey_cons (p : String × String) (m : List (String × String)) (a : String) :
    getKey (p :: m) a = if p.1 = a then some p.2 else getKey m a := by
  by_cases h : p.1 = a
  · simp [getKey, List.find?, h]
  · have hb : (p.1 == a) = false := beq_eq_false_iff_ne.mpr h
    simp [getKey, List.find?, hb, h]

theorem getKey_setKey_same (k v : String) :
    ∀ m, getKey (setKey m k v) k = some v := by
  intro m
  induction m with
  | nil => simp [setKey, getKey]
  | cons p rest ih =>
    rw [setKey]
    by_cases hpk : p.1 = k
    · rw [if_pos hpk]
      simp [getKey_cons]
    · rw [if_neg hpk]
      rw [getKey_cons]
      rw [if_neg hpk]
      exact ih

theorem getKey_setKey_other (k v a : String) (hak : a ≠ k) :
    ∀ m, getKey (setKey m k v) a = getKey m a := by
  intro m
  induction m with
  | nil =>
    simp [setKey, getKey_cons, getKey, Ne.symm hak]
  | cons p rest ih =>
    rw [setKey]
    by_cases hpk : p.1 = k
    · rw [if_pos hpk]
      have hka : ¬(k = a) := fun h => hak h.symm
      have hpa : ¬(p.1 = a) := by rw [hpk]; exact hka
      rw [getKey_cons, getKey_cons, if_neg hka, if_neg hpa]
    · rw [if_neg hpk]
      rw [getKey_cons, getKey_cons, ih]

theorem getKey_none_iff_not_mem (a : String) :
    ∀ m : List (String × String), getKey m a = none ↔ a ∉ m.map Prod.fst := by
  intro m
  induction m with
  | nil => simp [getKey]
  | cons p rest ih =>
    rw [getKey_cons]
    by_cases hpk : p.1 = a
    · rw [if_pos hpk]
      simp [hpk]
    · rw [if_neg hpk]
      simp only [List.map_cons, List.mem_cons, ih]
      constructor
      · intro h
        rintro (rfl | hm)
        · exact hpk rfl
        · exact h hm
      · intro h hm
        exact h (Or.inr hm)

/-! ### Metadata step lemmas -/

theorem setKey_exists_mem (k v : String) (m : List (String × String)) (a : String) :
    (∃ x, (a, x) ∈ setKey m k v) ↔ (∃ x, (a, x) ∈ m) ∨ a = k := by
  have h := setKey_fst_mem k v m a
  simpa using h

theorem titleStep_keys (soup : NodeList) (m : List (String × String)) (a : String) :
    a ∈ (titleStep soup m).map Prod.fst ↔
      a ∈ m.map Prod.fst ∨ (a = "title" ∧ titleFound soup = true) := by
  rcases hft : findTag "title" soup with _ | tn
  · simp [titleStep, titleFound, hft]
  · rcases hns : nodeString tn with _ | s
    · simp [titleStep, titleFound, hft, hns]
    · by_cases hs : s = ""
      · simp [titleStep, titleFound, hft, hns, hs]
      · simp [titleStep, titleFound, hft, hns, hs, setKey_fst_mem, setKey_exists_mem]

theorem metaAuthorStep_keys (soup : NodeList) (m : List (String × String)) (a : String) :
    a ∈ (metaAuthorStep soup m).map Prod.fst ↔
      a ∈ m.map Prod.fst ∨ (a = "author" ∧ metaAuthorFound soup = true) := by
  rcases hfm : findMetaWith "name" "author" soup with _ | an
  · simp [metaAuthorStep, metaAuthorFound, hfm]
  · rcases hc : getAttr (nodeAttrs an) "content" with _ | c
    · simp [metaAuthorStep, metaAuthorFound, hfm, hc]
    · by_cases hcs : c = ""
      · simp [metaAuthorStep, metaAuthorFound, hfm, hc, hcs]
      · simp [metaAuthorStep, metaAuthorFound, hfm, hc, hcs, setKey_fst_mem, setKey_exists_mem]

theorem classAuthorStep_keys (soup : NodeList) (m : List (String × String)) (a : String) :
    a ∈ (classAuthorStep soup m).map Prod.fst ↔
      a ∈ m.map Prod.fst ∨
        (a = "author" ∧ (getKey m "author").isNone ∧ classAuthorFound soup = true) := by
  by_cases hn : (getKey m "author").isNone
  · rcases hfc : findClass "author" soup with _ | sp
    · simp [classAuthorStep, classAuthorFound, hfc, hn]
    · simp [classAuthorStep, classAuthorFound, hfc, hn, setKey_fst_mem, setKey_exists_mem]
  · simp [classAuthorStep, classAuthorFound, hn]

theorem timeStep_keys (soup : NodeList) (m : List (String × String)) (a : String) :
    a ∈ (timeStep soup m).map Prod.fst ↔
      a ∈ m.map Prod.fst ∨ (a = "date" ∧ (findTag "time" soup).isSome = true) := by
  rcases hft : findTag "time" soup with _ | tt
  · simp [timeStep, hft]
  · simp [timeStep, hft, setKey_fst_mem, setKey_exists_mem]

theorem pubTimeStep_keys (soup : NodeList) (m : List (String × String)) (a : String) :
    a ∈ (pubTimeStep soup m).map Prod.fst ↔
      a ∈ m.map Prod.fst ∨ (a = "date" ∧ pubTimeFound soup = true) := by
  rcases hfm : findMetaWith "property" "article:published_time" soup with _ | dm
  · simp [pubTimeStep, pubTimeFound, hfm]
  · rcases hc : getAttr (nodeAttrs dm) "content" with _ | c
    · simp [pubTimeStep, pubTimeFound, hfm, hc]
    · by_cases hcs : c = ""
      · simp [pubTimeStep, pubTimeFound, hfm, hc, hcs]
      · simp [pubTimeStep, pubTimeFound, hfm, hc, hcs, setKey_fst_mem, setKey_exists_mem]

theorem getKey_titleStep_other (soup : NodeList) (m : List (String × String))
    (a : String) (ha : a ≠ "title") :
    getKey (titleStep soup m) a = getKey m a := by
  rcases hft : findTag "title" soup with _ | tn
  · simp [titleStep, hft]
  · rcases hns : nodeString tn with _ | s
    · simp [titleStep, hft, hns]
    · by_cases hs : s = ""
      · simp [titleStep, hft, hns, hs]
      · simp [titleStep, hft, hns, hs, getKey_setKey_other _ _ _ ha]

theorem getKey_metaAuthorStep_other (soup : NodeList) (m : List (String × String))
    (a : String) (ha : a ≠ "author") :
    getKey (metaAuthorStep soup m) a = getKey m a := by
  rcases hfm : findMetaWith "name" "author" soup with _ | an
  · simp [metaAuthorStep, hfm]
  · rcases hc : getAttr (nodeAttrs an) "content" with _ | c
    · simp [metaAuthorStep, hfm, hc]
    · by_cases hcs : c = ""
      · simp [metaAuthorStep, hfm, hc, hcs]
      · simp [metaAuthorStep, hfm, hc, hcs, getKey_setKey_other _ _ _ ha]

theorem getKey_classAuthorStep_other (soup : NodeList) (m : List (String × String))
    (a : String) (ha : a ≠ "author") :
    getKey (classAuthorStep soup m) a = getKey m a := by
  by_cases hn : (getKey m "author").isNone
  · rcases hfc : findClass "author" soup with _ | sp
    · simp [classAuthorStep, hfc, hn]
    · simp [classAuthorStep, hfc, hn, getKey_setKey_other _ _ _ ha]
  · simp [classAuthorStep, hn]

theorem getKey_timeStep_other (soup : NodeList) (m : List (String × String))
    (a : String) (ha : a ≠ "date") :
    getKey (timeStep soup m) a = getKey m a := by
  rcases hft : findTag "time" soup with _ | tt
  · simp [timeStep, hft]
  · simp [timeStep, hft, getKey_setKey_other _ _ _ ha]

theorem getKey_pubTimeStep_other (soup : NodeList) (m : List (String × String))
    (a : String) (ha : a ≠ "date") :
    getKey (pubTimeStep soup m) a = getKey m a := by
  rcases hfm : findMetaWith "property" "article:published_time" soup with _ | dm
  · simp [pubTimeStep, hfm]
  · rcases hc : getAttr (nodeAttrs dm) "content" with _ | c
    · simp [pubTimeStep, hfm, hc]
    · by_cases hcs : c = ""
      · simp [pubTimeStep, hfm, hc, hcs]
      · simp [pubTimeStep, hfm, hc, hcs, getKey_setKey_other _ _ _ ha]

theorem getKey_metaAuthorStep_author_not (soup : NodeList) (m : List (String × String))
    (h : metaAuthorFound soup = false) :
    getKey (metaAuthorStep soup m) "author" = getKey m "author" := by
  rcases hfm : findMetaWith "name" "author" soup with _ | an
  · simp [metaAuthorStep, hfm]
  · rcases hc : getAttr (nodeAttrs an) "content" with _ | c
    · simp [metaAuthorStep, hfm, hc]
    · simp only [metaAuthorFound, hfm, hc] at h
      by_cases hcs : c = ""
      · simp [metaAuthorStep, hfm, hc, hcs]
      · simp [hcs] at h

theorem getKey_timeStep_date (soup : NodeList) (m : List (String × String)) (tt : Node)
    (hft : findTag "time" soup = some tt) :
    getKey (timeStep soup m) "date" =
      some (pyStrip (match getAttr (nodeAttrs tt) "datetime" with
        | some v => v
        | none => String.mk (getText [] (nodeChildren tt)))) := by
  simp [timeStep, hft, getKey_setKey_same]

theorem getKey_timeStep_date_none (soup : NodeList) (m : List (String × String))
    (hft : findTag "time" soup = none) :
    getKey (timeStep soup m) "date" = getKey m "date" := by
  simp [timeStep, hft]

theorem getKey_pubTimeStep_date_found (soup : NodeList) (m : List (String × String))
    (h : pubTimeFound soup = true) :
    ∃ dm c, findMetaWith "property" "article:published_time" soup = some dm ∧
      getAttr (nodeAttrs dm) "content" = some c ∧ c ≠ "" ∧
      getKey (pubTimeStep soup m) "date" = some (pyStrip c) := by
  rcases hfm : findMetaWith "property" "article:published_time" soup with _ | dm
  · simp [pubTimeFound, hfm] at h
  · rcases hc : getAttr (nodeAttrs dm) "content" with _ | c
    · simp [pubTimeFound, hfm, hc] at h
    · simp only [pubTimeFound, hfm, hc] at h
      have hcs : c ≠ "" := by simpa using h
      exact ⟨dm, c, rfl, hc, hcs, by simp [pubTimeStep, hfm, hc, hcs, getKey_setKey_same]⟩

theorem getKey_pubTimeStep_date_not (soup : NodeList) (m : List (String × String))
    (h : pubTimeFound soup = false) :
    getKey (pubTimeStep soup m) "date" = getKey m "date" := by
  rcases hfm : findMetaWith "property" "article:published_time" soup with _ | dm
  · simp [pubTimeStep, hfm]
  · rcases hc : getAttr (nodeAttrs dm) "content" with _ | c
    · simp [pubTimeStep, hfm, hc]
    · simp only [pubTimeFound, hfm, hc] at h
      by_cases hcs : c = ""
      · simp [pubTimeStep, hfm, hc, hcs]
      · simp [hcs] at h

theorem getKey_metaAuthorStep_author_found (soup : NodeList)
    (m : List (String × String)) (h : metaAuthorFound soup = true) :
    ∃ c, getKey (metaAuthorStep soup m) "author" = some (pyStrip c) := by
  rcases hfm : findMetaWith "name" "author" soup with _ | an
  · simp [metaAuthorFound, hfm] at h
  · rcases hc : getAttr (nodeAttrs an) "content" with _ | c
    · simp [metaAuthorFound, hfm, hc] at h
    · simp only [metaAuthorFound, hfm, hc] at h
      have hcs : c ≠ "" := by simpa using h
      exact ⟨c, by simp [metaAuthorStep, hfm, hc, hcs, getKey_setKey_same]⟩

theorem extract_metadata_keys (soup : NodeList) (a : String) :
    a ∈ (extract_metadata soup).map Prod.fst ↔
      ((a = "title" ∧ titleFound soup = true) ∨
       (a = "author" ∧ (metaAuthorFound soup = true ∨ classAuthorFound soup = true)) ∨
       (a = "date" ∧ ((findTag "time" soup).isSome = true ∨ pubTimeFound soup = true))) := by
  rw [extract_metadata, pubTimeStep_keys, timeStep_keys, classAuthorStep_keys,
    metaAuthorStep_keys, titleStep_keys]
  have hbase_auth : getKey (titleStep soup []) "author" = none := by
    rw [getKey_titleStep_other soup [] "author" (by decide)]
    rfl
  by_cases hma : metaAuthorFound soup = true
  · obtain ⟨c, hc⟩ := getKey_metaAuthorStep_author_found soup (titleStep soup []) hma
    rw [hc]
    simp only [Option.isNone_some, Bool.false_eq_true, false_and, and_false, or_false,
      List.map_nil, List.not_mem_nil, false_or, hma, and_true]
    tauto
  · have hma' : metaAuthorFound soup = false := by
      revert hma
      cases metaAuthorFound soup <;> simp
    rw [getKey_metaAuthorStep_author_not soup _ hma', hbase_auth]
    simp only [Option.isNone_none, true_and, List.map_nil, List.not_mem_nil, false_or,
      hma', Bool.false_eq_true, false_or, and_false]
    tauto

theorem docMeta_keys (doc : NodeList) (fp : String) (su : Option String) (a : String) :
    a ∈ (docMeta doc fp su).map Prod.fst ↔
      (a ∈ (extract_metadata (clean_html doc).2).map Prod.fst ∨ a = "filename" ∨
        (a = "source" ∧ su.isSome = true)) := by
  cases su with
  | none =>
    rw [docMeta, setKey_fst_mem]
    simp
  | some u =>
    rw [docMeta, setKey_fst_mem, setKey_fst_mem]
    simp
    tauto

/-! ### Record-level lemmas -/

theorem process_file_records (doc : NodeList) (fp : String) (n ov : Nat)
    (su : Option String) (hne : (clean_html doc).1 ≠ []) :
    (process_file (Except.ok doc) fp n ov su).1 =
      (enumFrom 0 (split_text n ov (clean_html doc).1)).map
        (fun p => mkEntry (docMeta doc fp su) p.1 (String.mk p.2)) := by
  cases su with
  | none => simp [process_file, hne, docMeta]
  | some u => simp [process_file, hne, docMeta]

theorem objKeys_mkEntry (md : List (String × String)) (i : Nat) (c : String) :
    objKeys (mkEntry md i c) = ["content", "metadata"] := rfl

theorem objGet_content_mkEntry (md : List (String × String)) (i : Nat) (c : String) :
    objGet "content" (mkEntry md i c) = some (JsonVal.str c) := by
  simp [objGet, mkEntry, List.find?]

theorem objGet_metadata_mkEntry (md : List (String × String)) (i : Nat) (c : String) :
    objGet "metadata" (mkEntry md i c) =
      some (JsonVal.obj (md.map (fun p => (p.1, JsonVal.str p.2))
        ++ [("chunk", JsonVal.num i)])) := by
  simp [objGet, mkEntry, List.find?]

theorem entryMetaKeys_mkEntry (md : List (String × String)) (i : Nat) (c : String) :
    entryMetaKeys (mkEntry md i c) = md.map Prod.fst ++ ["chunk"] := by
  rw [entryMetaKeys, objGet_metadata_mkEntry]
  simp [objKeys, List.map_map, Function.comp]

theorem find?_chunk_append (l : List (String × JsonVal)) (v : JsonVal)
    (h : ∀ p ∈ l, p.1 ≠ "chunk") :
    List.find? (fun p => p.1 == "chunk") (l ++ [("chunk", v)]) = some ("chunk", v) := by
  induction l with
  | nil => rfl
  | cons p rest ih =>
    have hb : (p.1 == "chunk") = false :=
      beq_eq_false_iff_ne.mpr (h p (List.mem_cons_self _ _))
    simp only [List.cons_append, List.find?_cons, hb]
    exact ih (fun q hq => h q (List.mem_cons_of_mem _ hq))

theorem entryChunk_mkEntry (md : List (String × String)) (i : Nat) (c : String)
    (h : ∀ p ∈ md, p.1 ≠ "chunk") :
    entryChunk (mkEntry md i c) = some (JsonVal.num i) := by
  rw [entryChunk, objGet_metadata_mkEntry]
  have hmap : ∀ q ∈ md.map (fun p => (p.1, JsonVal.str p.2)), q.1 ≠ "chunk" := by
    intro q hq
    rcases List.mem_map.mp hq with ⟨p, hp, rfl⟩
    exact h p hp
  simp [objGet, find?_chunk_append _ _ hmap]

theorem entryContent_mkEntry (md : List (String × String)) (i : Nat) (c : String) :
    entryContent (mkEntry md i c) = some (JsonVal.str c) := by
  simp [entryContent, objGet, mkEntry, List.find?]

theorem docMeta_no_chunk (doc : NodeList) (fp : String) (su : Option String) :
    ∀ p ∈ docMeta doc fp su, p.1 ≠ "chunk" := by
  intro p hp hchunk
  have hk : p.1 ∈ (docMeta doc fp su).map Prod.fst := List.mem_map_of_mem _ hp
  rw [docMeta_keys] at hk
  rcases hk with hk | hk | hk
  · rw [extract_metadata_keys] at hk
    rcases hk with ⟨hk1, _⟩ | ⟨hk1, _⟩ | ⟨hk1, _⟩ <;> rw [hchunk] at hk1 <;> simp at hk1
  · rw [hchunk] at hk
    simp at hk
  · rcases hk with ⟨hk1, _⟩
    rw [hchunk] at hk1
    simp at hk1

theorem enum_map_chunk (md : List (String × String))
    (h : ∀ p ∈ md, p.1 ≠ "chunk") :
    ∀ (xs : List Txt) (i : Nat),
      ((enumFrom i xs).map (fun p => mkEntry md p.1 (String.mk p.2))).map entryChunk
        = (List.range' i xs.length).map (fun j => some (JsonVal.num j)) := by
  intro xs
  induction xs with
  | nil =>
    intro i
    rfl
  | cons c cs ih =>
    intro i
    rw [enumFrom]
    simp only [List.map_cons, List.length_cons, List.range'_succ]
    rw [entryChunk_mkEntry md i (String.mk c) h, ih (i + 1)]

theorem enum_map_content (md : List (String × String)) :
    ∀ (xs : List Txt) (i : Nat),
      ((enumFrom i xs).map (fun p => mkEntry md p.1 (String.mk p.2))).map entryContent
        = xs.map (fun c => some (JsonVal.str (String.mk c))) := by
  intro xs
  induction xs with
  | nil =>
    intro i
    rfl
  | cons c cs ih =>
    intro i
    rw [enumFrom]
    simp only [List.map_cons]
    rw [entryContent_mkEntry, ih (i + 1)]

/-! ### Claim C4: chunk indices -/

/-- C4: for a processed document producing N chunks, the `chunk` values in
its output records are exactly 0 through N−1, assigned in left-to-right
chunk order, and the record contents are the chunks in the same order. -/
theorem chunk_indices_enumerated (doc : NodeList) (fp : String) (n ov : Nat)
    (su : Option String) :
    ((process_file (Except.ok doc) fp n ov su).1).map entryChunk
        = (List.range (split_text n ov (clean_html doc).1).length).map
            (fun j => some (JsonVal.num j)) ∧
    ((process_file (Except.ok doc) fp n ov su).1).map entryContent
        = (split_text n ov (clean_html doc).1).map
            (fun c => some (JsonVal.str (String.mk c))) := by
  by_cases hne : (clean_html doc).1 = []
  · have hsplit0 : split_text n ov ([] : Txt) = [] := rfl
    constructor <;> simp [process_file, hne, hsplit0]
  · rw [process_file_records doc fp n ov su hne]
    constructor
    · rw [enum_map_chunk (docMeta doc fp su) (docMeta_no_chunk doc fp su)
        (split_text n ov (clean_html doc).1) 0, List.range_eq_range']
    · rw [enum_map_content (docMeta doc fp su) (split_text n ov (clean_html doc).1) 0]

/-! ### Claim C5: record shape -/

/-- C5: every emitted record has exactly the two top-level keys `content`
(a string) and `metadata` (an object); `filename` and `chunk` are always
present in the metadata; metadata keys range over `title`, `author`,
`date`, `filename`, `source`, `chunk`; and the optional keys are present
exactly when their source was discovered. -/
theorem record_shape (doc : NodeList) (fp : String) (n ov : Nat) (su : Option String) :
    ∀ e ∈ (process_file (Except.ok doc) fp n ov su).1,
      objKeys e = ["content", "metadata"] ∧
      (∃ s, objGet "content" e = some (JsonVal.str s)) ∧
      (∃ fields, objGet "metadata" e = some (JsonVal.obj fields)) ∧
      "filename" ∈ entryMetaKeys e ∧
      "chunk" ∈ entryMetaKeys e ∧
      (∀ a ∈ entryMetaKeys e,
        a = "title" ∨ a = "author" ∨ a = "date" ∨ a = "filename" ∨ a = "source" ∨
          a = "chunk") ∧
      ("title" ∈ entryMetaKeys e ↔ titleFound (clean_html doc).2 = true) ∧
      ("author" ∈ entryMetaKeys e ↔
        (metaAuthorFound (clean_html doc).2 = true ∨
          classAuthorFound (clean_html doc).2 = true)) ∧
      ("date" ∈ entryMetaKeys e ↔
        ((findTag "time" (clean_html doc).2).isSome = true ∨
          pubTimeFound (clean_html doc).2 = true)) ∧
      ("source" ∈ entryMetaKeys e ↔ su.isSome = true) := by
  intro e he
  by_cases hne : (clean_html doc).1 = []
  · rw [process_file_empty doc fp n ov su hne] at he
    simp at he
  · rw [process_file_records doc fp n ov su hne] at he
    rcases List.mem_map.mp he with ⟨p, _, rfl⟩
    have hkeys : ∀ a : String,
        a ∈ entryMetaKeys (mkEntry (docMeta doc fp su) p.1 (String.mk p.2)) ↔
          ((a ∈ (extract_metadata (clean_html doc).2).map Prod.fst ∨ a = "filename" ∨
            (a = "source" ∧ su.isSome = true)) ∨ a = "chunk") := by
      intro a
      rw [entryMetaKeys_mkEntry, List.mem_append, docMeta_keys]
      simp
    refine ⟨objKeys_mkEntry _ _ _, ⟨_, objGet_content_mkEntry _ _ _⟩,
      ⟨_, objGet_metadata_mkEntry _ _ _⟩, ?_, ?_, ?_, ?_, ?_, ?_, ?_⟩
    · rw [hkeys]
      tauto
    · rw [hkeys]
      tauto
    · intro a ha
      rw [hkeys, extract_metadata_keys] at ha
      tauto
    · rw [hkeys, extract_metadata_keys]
      simp
    · rw [hkeys, extract_metadata_keys]
      simp
    · rw [hkeys, extract_metadata_keys]
      simp
    · rw [hkeys, extract_metadata_keys]
      simp

/-- Witness for C5 at a concrete document and record. -/
theorem record_shape_witness :
    objKeys (mkEntry [("filename", "t.html")] 0 "hi") = ["content", "metadata"] ∧
    "filename" ∈ entryMetaKeys (mkEntry [("filename", "t.html")] 0 "hi") ∧
    "chunk" ∈ entryMetaKeys (mkEntry [("filename", "t.html")] 0 "hi") ∧
    ("title" ∈ entryMetaKeys (mkEntry [("filename", "t.html")] 0 "hi") ↔
      titleFound (clean_html exTinyDoc).2 = true) := by
  have heq : process_file (Except.ok exTinyDoc) "t.html" 5 1 none =
      ([mkEntry [("filename", "t.html")] 0 "hi"], []) := by
    simp [process_file, clean_html, exTinyDoc, stripTags, removeBoiler, boilerTags,
      scriptTags, dropFirstTag, collectTexts, getText, joinSep, splitOnChar, trimChars,
      extract_metadata, titleStep, metaAuthorStep, classAuthorStep, timeStep, pubTimeStep,
      findTag, findMetaWith, findClass, getKey, setKey, basename, split_text, splitSeps,
      enumFrom, occursIn, isPrefOf, nlist]
  have he : mkEntry [("filename", "t.html")] 0 "hi"
      ∈ (process_file (Except.ok exTinyDoc) "t.html" 5 1 none).1 := by
    rw [heq]
    exact List.mem_cons_self _ _
  have h := record_shape exTinyDoc "t.html" 5 1 none
    (mkEntry [("filename", "t.html")] 0 "hi") he
  exact ⟨h.1, h.2.2.2.1, h.2.2.2.2.1, h.2.2.2.2.2.2.1⟩

/-! ### Claim C8: date metadata -/

/-- C8: the `date` metadata comes from the first time element (preferring
its machine-readable `datetime` attribute over its display text) and is
overridden by a truthy `article:published_time` meta property; when
neither source exists the `date` key is omitted; and the title-plus-author
example document yields exactly the keys `title`, `author`, `filename`
with no `date` key. -/
theorem date_metadata (soup : NodeList) :
    (findTag "time" soup = none → pubTimeFound soup = false →
      "date" ∉ (extract_metadata soup).map Prod.fst) ∧
    (∀ dm c, pubTimeFound soup = true →
      findMetaWith "property" "article:published_time" soup = some dm →
      getAttr (nodeAttrs dm) "content" = some c →
      getKey (extract_metadata soup) "date" = some (pyStrip c)) ∧
    (∀ tt, pubTimeFound soup = false → findTag "time" soup = some tt →
      getKey (extract_metadata soup) "date" =
        some (pyStrip (match getAttr (nodeAttrs tt) "datetime" with
          | some v => v
          | none => String.mk (getText [] (nodeChildren tt))))) ∧
    setKey (extract_metadata exTitleAuthorDoc) "filename" "post.html" =
      [("title", "Hello"), ("author", "Jane"), ("filename", "post.html")] := by
  refine ⟨?_, ?_, ?_, ?_⟩
  · intro htime hpub
    rw [← getKey_none_iff_not_mem]
    rw [extract_metadata, getKey_pubTimeStep_date_not _ _ hpub,
      getKey_timeStep_date_none _ _ htime,
      getKey_classAuthorStep_other _ _ _ (by decide),
      getKey_metaAuthorStep_other _ _ _ (by decide),
      getKey_titleStep_other _ _ _ (by decide)]
    rfl
  · intro dm c hpub hfm hc
    obtain ⟨dm', c', hfm', hc', _, hval⟩ :=
      getKey_pubTimeStep_date_found soup
        (timeStep soup (classAuthorStep soup (metaAuthorStep soup (titleStep soup []))))
        hpub
    rw [extract_metadata, hval]
    rw [hfm] at hfm'
    cases Option.some.inj hfm'
    rw [hc] at hc'
    cases Option.some.inj hc'
    rfl
  · intro tt hpub hft
    rw [extract_metadata, getKey_pubTimeStep_date_not _ _ hpub,
      getKey_timeStep_date _ _ tt hft]
  · have ht : titleStep exTitleAuthorDoc [] = [("title", pyStrip "Hello")] := by
      simp [titleStep, findTag, nodeString, exTitleAuthorDoc, nlist, setKey]
    have ha : metaAuthorStep exTitleAuthorDoc [("title", pyStrip "Hello")]
        = [("title", pyStrip "Hello"), ("author", pyStrip "Jane")] := by
      simp [metaAuthorStep, findMetaWith, getAttr, nodeAttrs, exTitleAuthorDoc, nlist, setKey]
    have hcl : classAuthorStep exTitleAuthorDoc
          [("title", pyStrip "Hello"), ("author", pyStrip "Jane")]
        = [("title", pyStrip "Hello"), ("author", pyStrip "Jane")] := by
      simp [classAuthorStep, getKey, List.find?, pyStrip]
    have htm : timeStep exTitleAuthorDoc
          [("title", pyStrip "Hello"), ("author", pyStrip "Jane")]
        = [("title", pyStrip "Hello"), ("author", pyStrip "Jane")] := by
      simp [timeStep, findTag, exTitleAuthorDoc, nlist]
    have hpb : pubTimeStep exTitleAuthorDoc
          [("title", pyStrip "Hello"), ("author", pyStrip "Jane")]
        = [("title", pyStrip "Hello"), ("author", pyStrip "Jane")] := by
      simp [pubTimeStep, findMetaWith, getAttr, nodeAttrs, exTitleAuthorDoc, nlist]
    rw [extract_metadata, ht, ha, hcl, htm, hpb]
    have hH : pyStrip "Hello" = "Hello" := by decide
    have hJ : pyStrip "Jane" = "Jane" := by decide
    rw [hH, hJ]
    rfl

/-- Witness for C8: a document whose time element carries a machine-readable
datetime attribute. -/
theorem date_metadata_witness :
    getKey (extract_metadata exTimeDoc) "date" = some "2024-01-02" := by
  have h := (date_metadata exTimeDoc).2.2.1
    (Node.elem "time" [("datetime", "2024-01-02")] (nlist [Node.text "Jan 2"]))
    (by simp [pubTimeFound, findMetaWith, exTimeDoc, nlist, nodeAttrs, getAttr])
    (by simp [findTag, exTimeDoc, nlist])
  rw [h]
  decide

/-- Witness for C9 at a concrete unreadable file. -/
theorem read_error_skipped_witness :
    process_file (Except.error "decode failure") "bad.html" 10 2 none =
      ([], ["Warning: could not read file " ++ "bad.html" ++ ": " ++ "decode failure"]) ∧
    ∃ r : MainResult,
      RagPrep.main batchFS ["bad.html", "good.html"] "out.jsonl" 10 2 = Except.ok r ∧
      r.output = some (((gather_files batchFS ["bad.html", "good.html"]).1.map
          (fun q => process_file (batchFS.readDoc q) q 10 2 none)).flatMap (fun x => x.1)) ∧
      (process_file (batchFS.readDoc "bad.html") "bad.html" 10 2 none).1 = [] ∧
      ("Warning: could not read file " ++ "bad.html" ++ ": " ++ "decode failure") ∈ r.logs :=
  ⟨(read_error_skipped "decode failure" "bad.html" 10 2 none).1,
   (read_error_skipped "decode failure" "bad.html" 10 2 none).2
     batchFS ["bad.html", "good.html"] "out.jsonl" (by decide) (by decide) rfl⟩

/-! ### Claim C7: boilerplate removal -/

set_option allowUnsafeReducibility true in
attribute [semireducible] stripTags countTag findTag dropFirstTag collectTexts
  findMetaWith findClass noneInside

/-- C7 counterexample: on a document whose header contains a nav, cleaning
removes two of the three nav instances (the nested one together with the
header, plus the nav step's own first target) — more than one instance of
the nav container tag is removed. -/
theorem clean_html_nested_counterexample :
    countTag "nav" exNested = 3 ∧
    countTag "nav" (clean_html exNested).2 = 1 ∧
    countTag "nav" exNested - countTag "nav" (clean_html exNested).2 = 2 := by
  refine ⟨by decide, by decide, by decide⟩

/-- C7 (amended): cleaning removes every script/style/noscript instance;
and provided no boilerplate element is nested inside a script-like element
or inside another boilerplate element, exactly one instance of each
present boilerplate tag is removed (none when the tag is absent) — never
all instances. -/
theorem clean_html_boiler (doc : NodeList) :
    (∀ t ∈ scriptTags, countTag t (clean_html doc).2 = 0) ∧
    (∀ t ∈ boilerTags, noneInside (scriptTags ++ boilerTags) t doc = true →
      countTag t (clean_html doc).2 = countTag t doc - min 1 (countTag t doc)) := by
  have hclean : (clean_html doc).2 = removeBoiler (stripTags scriptTags doc) := rfl
  constructor
  · intro t ht
    rw [hclean, removeBoiler]
    have h0 : countTag t (stripTags scriptTags doc) = 0 :=
      countTag_stripTags_zero scriptTags t ht doc
    have hle := countTag_fold_le t boilerTags (stripTags scriptTags doc)
    omega
  · intro t ht hsep
    rw [hclean, removeBoiler]
    have htn : t ∉ scriptTags := by
      have hdisj : ∀ x ∈ boilerTags, x ∉ scriptTags := by decide
      exact hdisj t ht
    have hstrip_eq := countTag_stripTags_eq (scriptTags ++ boilerTags) scriptTags t htn
      (fun x hx => List.mem_append_left _ hx) doc hsep
    have hsepstrip := noneInside_stripTags (scriptTags ++ boilerTags) t scriptTags doc hsep
    have hfold := countTag_fold_target (scriptTags ++ boilerTags) t
      (List.mem_append_right _ ht) boilerTags ht (by decide)
      (fun x hx => List.mem_append_right _ hx) (stripTags scriptTags doc) hsepstrip
    rw [hfold, hstrip_eq]

/-- Witness for the amended C7 at a document with sibling boilerplate:
one of the two navs survives cleaning. -/
theorem clean_html_boiler_witness :
    countTag "script" (clean_html exSeparatedDoc).2 = 0 ∧
    countTag "nav" (clean_html exSeparatedDoc).2 =
      countTag "nav" exSeparatedDoc - min 1 (countTag "nav" exSeparatedDoc) ∧
    countTag "nav" exSeparatedDoc = 2 ∧
    countTag "nav" (clean_html exSeparatedDoc).2 = 1 :=
  ⟨(clean_html_boiler exSeparatedDoc).1 "script" (by decide),
   (clean_html_boiler exSeparatedDoc).2 "nav" (by decide) (by decide),
   by decide, by decide⟩

end RagPrep
